import Mathlib

/-!
Verification of the QuickPatch VS Code extension's hunk-application engine.

The development shallowly embeds the TypeScript sources:
  * `src/inlineDiffSession.ts` — the pure helpers `applyPatchToContent` and
    `applySelectedHunksToContent`, the global inline-diff session record, and
    `getAdjustedStartLineForHunk`;
  * `src/commands.ts` — the `applyHunkOnly`, `skipHunk` and
    `applyAllRemainingInFile` command handlers.

Modelling conventions:
  * A text buffer is represented by its list of `'\n'`-separated segments,
    exactly what `originalContent.split('\n')` produces; the VS Code document
    of an editor is represented the same way, and the single workspace edit a
    command issues (`replace(Range(start,0 .. start+oldLines,0), text)`,
    where `text` is the concatenation of `line ++ "\n"`) is represented as a
    splice on that list of lines.
  * JavaScript `Array.prototype.splice(pos, cnt, ...ins)` (with `pos ≥ 0`,
    as in all call sites after clamping) is `take pos ++ ins ++ drop (pos+cnt)`.
  * JS `Set`s of hunk indices are `List Nat` used up to membership, `Map`s
    from hunk index to net line change are association lists whose most recent
    entry wins (`Map.set` overwrites).
  * Line numbers read from `parse-diff` (`oldStart`, `newStart`, …) are
    natural numbers; `Math.max(x - 1, 0)` on them is truncated subtraction.
  * The asynchronous `vscode.workspace.applyEdit` can be rejected by the
    editor; that outcome is an explicit boolean input of each modelled
    command ("simulated editor rejection").
-/

namespace QuickPatch

/-- `parse-diff` change kind: `'normal'` (context), `'add'` (insert), `'del'` (delete). -/
inductive ChangeType where
  | normal : ChangeType
  | add : ChangeType
  | del : ChangeType
deriving DecidableEq, Repr

/-- One line of a hunk as produced by `parse-diff`: its kind and its raw
content, which still carries the leading diff marker character. -/
structure Change where
  type : ChangeType
  content : String
deriving DecidableEq, Repr

/-- A hunk (`Chunk` in `parse-diff`): 1-based old/new start lines, declared
old/new line counts, and the ordered change list. -/
structure Chunk where
  oldStart : Nat
  oldLines : Nat
  newStart : Nat
  newLines : Nat
  changes : List Change
deriving DecidableEq, Repr

/-- A single-file diff (`File` in `parse-diff`), restricted to the fields the
engine reads: the ordered hunk list. -/
structure FileDiff where
  chunks : List Chunk
deriving DecidableEq, Repr

/-- Helper for `splitLines`: walk the character list, cutting at `'\n'`;
`acc` holds the characters of the current segment in reverse. -/
def splitLinesAux : List Char → List Char → List String
  | [], acc => [String.mk acc.reverse]
  | c :: cs, acc =>
    if c = '\n' then String.mk acc.reverse :: splitLinesAux cs []
    else splitLinesAux cs (c :: acc)

/-- JavaScript `s.split('\n')`: the `'\n'`-separated segments of `s`
(`"".split('\n')` is `[""]`, and a trailing newline yields a final empty
segment, as in JS). Implemented by structural recursion on the character
list so that it evaluates by kernel reduction. -/
def splitLines (s : String) : List String :=
  splitLinesAux s.data []

/-- JavaScript `s.join('\n')` on an array of lines. -/
def joinLines (lines : List String) : String :=
  String.intercalate "\n" lines

/-- JavaScript `s.substring(1)`: drop the first character (diff marker
characters are ASCII, so one code unit is one character). -/
def substring1 (s : String) : String :=
  String.mk (s.data.drop 1)

/-- JavaScript `arr.splice(pos, cnt, ...ins)` for `0 ≤ pos`:
remove `cnt` elements starting at `pos` and insert `ins` there.
Out-of-range positions and counts are clamped, as in JS. -/
def splice (l : List α) (pos cnt : Nat) (ins : List α) : List α :=
  l.take pos ++ ins ++ l.drop (pos + cnt)

/-- The replacement lines of a hunk: the contents of its `add` and `normal`
changes, in order, with the leading marker character removed
(`changes.filter(c => c.type === 'add' || c.type === 'normal')
         .map(c => c.content.substring(1))`). -/
def insertLines (c : Chunk) : List String :=
  (c.changes.filter fun ch => ch.type = ChangeType.add ∨ ch.type = ChangeType.normal).map
    fun ch => substring1 ch.content

/-- The 0-based splice position of a hunk in the pre-image:
`Math.max(chunk.oldStart - 1, 0)` (truncated subtraction on `Nat`). -/
def hunkPos (c : Chunk) : Nat :=
  c.oldStart - 1

/-- One iteration of the bottom-to-top loop of `applyPatchToContent`:
`out.splice(Math.max(chunk.oldStart - 1, 0), chunk.oldLines, ...insertLines)`. -/
def applyChunkStep (lines : List String) (c : Chunk) : List String :=
  splice lines (hunkPos c) c.oldLines (insertLines c)

/-- `applyPatchToContent` (src/inlineDiffSession.ts): split the buffer on
`'\n'`, splice every hunk from the last to the first at `oldStart − 1`
removing `oldLines` lines and inserting its `add`/`normal` lines, and join
with `'\n'`. -/
def applyPatchToContent (originalContent : String) (fileDiff : FileDiff) : String :=
  joinLines (fileDiff.chunks.reverse.foldl applyChunkStep (splitLines originalContent))

/-- Descending comparison used by `applySelectedHunksToContent`'s
`[...indices].sort((a, b) => b - a)`. -/
def descOrder (a b : Int) : Prop := b ≤ a

instance : DecidableRel descOrder := fun a b => inferInstanceAs (Decidable (b ≤ a))

instance : IsTotal Int descOrder := ⟨fun a b => le_total b a⟩

instance : IsTrans Int descOrder := ⟨fun _ _ _ h h' => le_trans h' h⟩

instance : IsAntisymm Int descOrder := ⟨fun _ _ h h' => le_antisymm h' h⟩

/-- `[...indices].sort((a, b) => b - a)`: the selection indices in descending
numeric order. -/
def sortDesc (l : List Int) : List Int :=
  l.insertionSort descOrder

/-- JS `allHunks[idx]`: `undefined` for an index that is negative or past the
end of the array. -/
def lookupHunk (allHunks : List Chunk) (idx : Int) : Option Chunk :=
  if idx < 0 then none else allHunks[idx.toNat]?

/-- The body of `applySelectedHunksToContent`'s `forEach`: skip a selection
index with no corresponding hunk, otherwise splice that hunk at
`oldStart − 1` removing `oldLines` lines. -/
def applySelectedStep (allHunks : List Chunk) (lines : List String) (idx : Int) : List String :=
  match lookupHunk allHunks idx with
  | none => lines
  | some hunk => applyChunkStep lines hunk

/-- `applySelectedHunksToContent` (src/inlineDiffSession.ts): apply only the
hunks named by `indices`, processing the indices in descending order, each at
its original coordinates. -/
def applySelectedHunksToContent (originalContent : String) (allHunks : List Chunk)
    (indices : List Int) : String :=
  joinLines ((sortDesc indices).foldl (applySelectedStep allHunks) (splitLines originalContent))

/-! ## The inline-diff review session and its commands -/

/-- The review status of one hunk, derived from the two index sets of the
session (`appliedHunkIndices` / `skippedHunkIndices`). -/
inductive HunkStatus where
  | pending : HunkStatus
  | applied : HunkStatus
  | skipped : HunkStatus
deriving DecidableEq, Repr

/-- The bookkeeping fields of `InlineDiffSession` (src/inlineDiffSession.ts)
that the engine reads or writes: the parsed hunks of `originalFileDiff`, the
applied/skipped index sets, the per-hunk measured net line changes
(`netLineChangesByHunkIndex`, most recent entry first), and the previewed
hunk (`activeHunkIndex`). Presentation-only fields (decoration types, code
lens provider, uri) are omitted. -/
structure ReviewState where
  chunks : List Chunk
  applied : List Nat
  skipped : List Nat
  netDelta : List (Nat × Int)
  activeHunk : Option Nat
deriving DecidableEq, Repr

/-- The live editor document together with the global single-slot session
(`activeInlineDiffSession`, `undefined` when no review is active). The
document is the editor's, so it survives `clearActiveInlineDiffSession`. -/
structure EditorState where
  doc : List String
  session : Option ReviewState
deriving DecidableEq, Repr

/-- JS `Set.prototype.add`: a no-op on an element already present. -/
def setAdd (l : List Nat) (i : Nat) : List Nat :=
  if i ∈ l then l else i :: l

/-- The status of hunk `i`: `applied` and `skipped` are membership in the two
index sets (the commands check `appliedHunkIndices` first). -/
def statusOf (s : ReviewState) (i : Nat) : HunkStatus :=
  if i ∈ s.applied then .applied else if i ∈ s.skipped then .skipped else .pending

/-- `originalFileDiff.chunks.every((_, idx) => applied.has(idx) || skipped.has(idx))`. -/
def allProcessed (s : ReviewState) : Bool :=
  (List.range s.chunks.length).all fun idx => idx ∈ s.applied ∨ idx ∈ s.skipped

/-- `chunks.findIndex((_, idx) => !applied.has(idx) && !skipped.has(idx))`,
with `none` for `-1`. -/
def nextPending (s : ReviewState) : Option Nat :=
  (List.range s.chunks.length).find? fun idx => ¬ (idx ∈ s.applied ∨ idx ∈ s.skipped)

/-- The offset loop of `getAdjustedStartLineForHunk`: for every `i < k` with
`appliedHunkIndices.has(i)`, add `netLineChangesByHunkIndex.get(i) || 0`. -/
def adjOffset (s : ReviewState) (k : Nat) : Int :=
  (List.range k).foldl
    (fun acc i => if i ∈ s.applied then acc + ((s.netDelta.lookup i).getD 0) else acc) 0

/-- The value `originalFileDiff.chunks[hunkIndex].oldStart - 1 + offset`
computed by `getAdjustedStartLineForHunk` for a hunk known to exist
(JS number arithmetic, so the result may be negative). -/
def adjStart (s : ReviewState) (c : Chunk) (hunkIndex : Nat) : Int :=
  (c.oldStart : Int) - 1 + adjOffset s hunkIndex

/-- The observable failure of a JavaScript property access on `undefined`
(`TypeError: cannot read properties of undefined`). -/
inductive JsError where
  | undefinedProperty : JsError
deriving DecidableEq, Repr

instance exceptJsDecEq : DecidableEq (Except JsError Int) := fun a b =>
  match a, b with
  | .error e, .error e' =>
    if h : e = e' then isTrue (by rw [h]) else isFalse fun hh => h (by cases hh; rfl)
  | .error _, .ok _ => isFalse fun h => Except.noConfusion h
  | .ok _, .error _ => isFalse fun h => Except.noConfusion h
  | .ok a, .ok b =>
    if h : a = b then isTrue (by rw [h]) else isFalse fun hh => h (by cases hh; rfl)

/-- `getAdjustedStartLineForHunk` (src/inlineDiffSession.ts): `-1` when no
session is active; otherwise `chunks[hunkIndex].oldStart - 1` plus the summed
net line changes of applied predecessors — reading `.oldStart` of a
nonexistent hunk throws. -/
def getAdjustedStartLineForHunk (st : Option ReviewState) (hunkIndex : Nat) :
    Except JsError Int :=
  match st with
  | none => .ok (-1)
  | some s =>
    match s.chunks[hunkIndex]? with
    | none => .error .undefinedProperty
    | some c => .ok (adjStart s c hunkIndex)

/-- `newTextForHunk` of the apply commands, as a list of lines: the
`add`/`normal` change contents, except that the dead-code guard
`if (hunk.newLines === 0 && newTextForHunk === "\n") newTextForHunk = ""`
empties a single blank line when the hunk declares `newLines = 0`. -/
def hunkNewText (c : Chunk) : List String :=
  let ins := insertLines c
  if c.newLines = 0 ∧ ins = [""] then [] else ins

/-- `quick-diff-apply.applyHunkOnly` (src/commands.ts): apply a single hunk.
`editOk` is the editor's verdict on the issued workspace edit. The handler
(1) ignores the request without an active session or on a non-`pending`
hunk, (2) reports and aborts on a missing hunk or an out-of-bounds
replacement range (a negative start line makes `new vscode.Position` throw,
which also leaves the state unchanged), and otherwise (3) replaces
`[adjStart, adjStart + oldLines)` with the hunk's new text, records the hunk
as applied with the measured line-count delta, clears the session when every
hunk is processed, and else previews the first still-pending hunk. A
rejected edit only advances the preview. -/
def applyHunkOnly (editOk : Bool) (st : EditorState) (hunkIndex : Nat) : EditorState :=
  match st.session with
  | none => st
  | some s =>
    if hunkIndex ∈ s.applied ∨ hunkIndex ∈ s.skipped then st
    else
      match s.chunks[hunkIndex]? with
      | none => st
      | some hunk =>
        let adj := adjStart s hunk hunkIndex
        if (adj < 0 ∨ (0 < hunk.oldLines ∧ (st.doc.length : Int) < adj + hunk.oldLines)) ∧
            ¬ (hunk.oldLines = 0 ∧ adj ≤ (st.doc.length : Int)) then st
        else if adj < 0 then st
        else if editOk then
          let newDoc := splice st.doc adj.toNat hunk.oldLines (hunkNewText hunk)
          let s' : ReviewState :=
            { s with applied := setAdd s.applied hunkIndex,
                     netDelta := (hunkIndex, (newDoc.length : Int) - st.doc.length) :: s.netDelta }
          if allProcessed s' then ⟨newDoc, none⟩
          else ⟨newDoc, some { s' with activeHunk := (nextPending s').getD hunkIndex |> some }⟩
        else
          ⟨st.doc, some { s with activeHunk := (nextPending s).getD hunkIndex |> some }⟩
  -- On both outcomes the handler ends by previewing the first hunk that is
  -- neither applied nor skipped; such a hunk exists on the surviving paths,
  -- so the `getD` default is never consulted.

/-- `quick-diff-apply.skipHunk` (src/commands.ts): mark a hunk rejected.
Ignored on an applied hunk; otherwise adds the index to the skipped set (a
no-op when already skipped), clears the session when every hunk is
processed, and else previews the first still-pending hunk. The document is
never touched. -/
def skipHunk (st : EditorState) (hunkIndex : Nat) : EditorState :=
  match st.session with
  | none => st
  | some s =>
    if hunkIndex ∈ s.applied then st
    else
      let s₁ : ReviewState := { s with skipped := setAdd s.skipped hunkIndex }
      if allProcessed s₁ then ⟨st.doc, none⟩
      else ⟨st.doc, some { s₁ with activeHunk := (nextPending s₁).getD hunkIndex |> some }⟩

/-- `previewHunk` (src/inlineDiffSession.ts): set `activeHunkIndex`. -/
def previewHunk (st : EditorState) (hunkIndex : Nat) : EditorState :=
  match st.session with
  | none => st
  | some s => ⟨st.doc, some { s with activeHunk := some hunkIndex }⟩

/-- The loop body sequence of `quick-diff-apply.applyAllRemainingInFile`
(src/commands.ts) over the enumerated hunks still to visit: skip processed
hunks; for a pending hunk compute the adjusted range (a negative start makes
the `vscode.Range` constructor throw, caught by the `catch` which returns
with the session open), issue the edit (`editOk i` is the editor's verdict),
and on success record the measured delta and continue; on failure return at
once with the session open. Exhausting the loop clears the session. -/
def applyAllRemainingGo (editOk : Nat → Bool) (doc : List String) (s : ReviewState) :
    List (Nat × Chunk) → EditorState
  | [] => ⟨doc, none⟩
  | (i, hunk) :: rest =>
    if i ∈ s.applied ∨ i ∈ s.skipped then applyAllRemainingGo editOk doc s rest
    else
      let adj := adjStart s hunk i
      if adj < 0 then ⟨doc, some s⟩
      else if editOk i then
        let newDoc := splice doc adj.toNat hunk.oldLines (hunkNewText hunk)
        applyAllRemainingGo editOk newDoc
          { s with applied := setAdd s.applied i,
                   netDelta := (i, (newDoc.length : Int) - doc.length) :: s.netDelta } rest
      else ⟨doc, some s⟩

/-- `quick-diff-apply.applyAllRemainingInFile`: run the loop over all hunk
indices in ascending order. -/
def applyAllRemaining (editOk : Nat → Bool) (st : EditorState) : EditorState :=
  match st.session with
  | none => st
  | some s => applyAllRemainingGo editOk st.doc s s.chunks.enum

/-- The session built by `startInlineDiffReview` for a parsed file diff:
everything empty, then the first unprocessed hunk (index 0, when a hunk
exists) is previewed. -/
def startSession (chunks : List Chunk) : ReviewState :=
  { chunks := chunks
    applied := []
    skipped := []
    netDelta := []
    activeHunk := if chunks.isEmpty then none else some 0 }

/-! ## Specification-side definitions

These re-state, from the specification's wording, what the engine is claimed
to compute; the theorems below compare them with the code translations. -/

/-- The lines a hunk contributes to the patched text according to the spec:
"the concatenation of all `insert`- and `context`-kind change lines, in
order" (marker characters stripped). -/
def specChangeLines (c : Chunk) : List String :=
  c.changes.filterMap fun ch =>
    match ch.type with
    | .add => some (substring1 ch.content)
    | .normal => some (substring1 ch.content)
    | .del => none

/-- "Removing `remove` original lines starting at `pos` (0-based) and
inserting `ins`". -/
def removeInsertAt (lines : List String) (pos remove : Nat) (ins : List String) : List String :=
  lines.take pos ++ (ins ++ lines.drop (pos + remove))

/-- The batch contract exactly as the specification words it: process hunks
from the last to the first, removing `oldLineCount` lines at `newStart − 1`. -/
def specApplyAllNewStart (lines : List String) : List Chunk → List String
  | [] => lines
  | c :: rest =>
    removeInsertAt (specApplyAllNewStart lines rest) (c.newStart - 1) c.oldLines
      (specChangeLines c)

/-- The amended batch contract: process hunks from the last to the first,
removing `oldLineCount` lines at `oldStart − 1` (clamped at 0). -/
def specApplyAllOldStart (lines : List String) : List Chunk → List String
  | [] => lines
  | c :: rest =>
    removeInsertAt (specApplyAllOldStart lines rest) (c.oldStart - 1) c.oldLines
      (specChangeLines c)

/-- A structurally valid hunk (§3 of the specification): a 1-based `oldStart`,
and declared line counts that agree with the counted `context`/`delete`
(resp. `context`/`insert`) changes. -/
def WellFormedChunk (c : Chunk) : Prop :=
  1 ≤ c.oldStart ∧
  c.oldLines = (c.changes.filter fun ch => ch.type = ChangeType.del ∨
    ch.type = ChangeType.normal).length ∧
  c.newLines = (c.changes.filter fun ch => ch.type = ChangeType.add ∨
    ch.type = ChangeType.normal).length

instance (c : Chunk) : Decidable (WellFormedChunk c) :=
  inferInstanceAs (Decidable (_ ∧ _ ∧ _))

/-- An ordered, non-overlapping, in-bounds hunk list over a buffer of `n`
lines: each hunk's 0-based footprint `[hunkPos, hunkPos + oldLines)` starts
at or after `base`, ends within the buffer, and precedes the next hunk's
footprint. -/
def Chain (n : Nat) : Nat → List Chunk → Prop
  | _, [] => True
  | base, c :: rest =>
    base ≤ hunkPos c ∧ hunkPos c + c.oldLines ≤ n ∧ Chain n (hunkPos c + c.oldLines) rest

instance chainDecidable (n : Nat) : (b : Nat) → (hs : List Chunk) → Decidable (Chain n b hs)
  | _, [] => isTrue trivial
  | _b, c :: rest =>
    haveI := chainDecidable n (hunkPos c + c.oldLines) rest
    inferInstanceAs (Decidable (_ ∧ _ ∧ _))

/-- `specChangeLines` computes the same replacement lines as the code's
`filter`/`map` chain. -/
theorem specChangeLines_eq_insertLines (c : Chunk) : specChangeLines c = insertLines c := by
  unfold specChangeLines insertLines
  induction c.changes with
  | nil => rfl
  | cons ch rest ih =>
    cases h : ch.type <;>
      simp [List.filterMap_cons, List.filter_cons, h, ih]

/-- Folding from the back of a reversed list is the same as the
last-to-first recursion. -/
theorem foldl_reverse_cons (f : List String → Chunk → List String) (L : List String)
    (c : Chunk) (rest : List Chunk) :
    (c :: rest).reverse.foldl f L = f (rest.reverse.foldl f L) c := by
  simp [List.foldl_append]

/-- Coordinate coherence of a hunk list as `parse-diff` produces it for a
real unified diff: each hunk's `newStart` is its `oldStart` shifted by the
accumulated declared line-count change of the earlier hunks. -/
def NewStartConsistent : Int → List Chunk → Prop
  | _, [] => True
  | shift, c :: rest =>
    (c.newStart : Int) = (c.oldStart : Int) + shift ∧
      NewStartConsistent (shift + ((c.newLines : Int) - (c.oldLines : Int))) rest

instance newStartConsistentDecidable :
    (shift : Int) → (hs : List Chunk) → Decidable (NewStartConsistent shift hs)
  | _, [] => isTrue trivial
  | shift, c :: rest =>
    haveI := newStartConsistentDecidable (shift + ((c.newLines : Int) - (c.oldLines : Int))) rest
    inferInstanceAs (Decidable (_ ∧ _))

/-- C1, counterexample. The claim positions every hunk at `newStart − 1`; on
the ordered, non-overlapping, fully coherent two-hunk diff below (first hunk
grows the file by two lines, so the second hunk has `newStart = 5` against
`oldStart = 3`), `applyPatchToContent` — which reads `oldStart` — produces a
different text than the claimed `newStart`-positioned processing. -/
theorem C1_counterexample :
    WellFormedChunk ⟨1, 1, 1, 3, [⟨.del, "-a"⟩, ⟨.add, "+A"⟩, ⟨.add, "+B"⟩, ⟨.add, "+C"⟩]⟩ ∧
    WellFormedChunk ⟨3, 1, 5, 1, [⟨.del, "-c"⟩, ⟨.add, "+C2"⟩]⟩ ∧
    Chain (splitLines "a\nb\nc\nd\n").length 0
      [⟨1, 1, 1, 3, [⟨.del, "-a"⟩, ⟨.add, "+A"⟩, ⟨.add, "+B"⟩, ⟨.add, "+C"⟩]⟩,
       ⟨3, 1, 5, 1, [⟨.del, "-c"⟩, ⟨.add, "+C2"⟩]⟩] ∧
    NewStartConsistent 0
      [⟨1, 1, 1, 3, [⟨.del, "-a"⟩, ⟨.add, "+A"⟩, ⟨.add, "+B"⟩, ⟨.add, "+C"⟩]⟩,
       ⟨3, 1, 5, 1, [⟨.del, "-c"⟩, ⟨.add, "+C2"⟩]⟩] ∧
    applyPatchToContent "a\nb\nc\nd\n"
        ⟨[⟨1, 1, 1, 3, [⟨.del, "-a"⟩, ⟨.add, "+A"⟩, ⟨.add, "+B"⟩, ⟨.add, "+C"⟩]⟩,
          ⟨3, 1, 5, 1, [⟨.del, "-c"⟩, ⟨.add, "+C2"⟩]⟩]⟩ ≠
      joinLines (specApplyAllNewStart (splitLines "a\nb\nc\nd\n")
        [⟨1, 1, 1, 3, [⟨.del, "-a"⟩, ⟨.add, "+A"⟩, ⟨.add, "+B"⟩, ⟨.add, "+C"⟩]⟩,
         ⟨3, 1, 5, 1, [⟨.del, "-c"⟩, ⟨.add, "+C2"⟩]⟩]) := by
  decide

/-- C1, amended: for every original text and hunk list, `applyPatchToContent`
produces the text obtained by processing hunks from last to first and, for
each hunk, removing its `oldLineCount` original lines starting at position
`oldStart − 1` (0-based, clamped at 0) and inserting, in order, the
concatenation of that hunk's insert- and context-kind change lines;
positioning reads `oldStart`, not `newStart`. -/
theorem C1_amended (T : String) (fd : FileDiff) :
    applyPatchToContent T fd = joinLines (specApplyAllOldStart (splitLines T) fd.chunks) := by
  unfold applyPatchToContent
  congr 1
  induction fd.chunks with
  | nil => rfl
  | cons c rest ih =>
    rw [foldl_reverse_cons, ih]
    show applyChunkStep _ c = removeInsertAt _ (c.oldStart - 1) c.oldLines (specChangeLines c)
    rw [specChangeLines_eq_insertLines]
    simp [applyChunkStep, splice, removeInsertAt, hunkPos]

/-- `statusOf` reports `applied` exactly for members of the applied set. -/
theorem statusOf_eq_applied_iff (s : ReviewState) (j : Nat) :
    statusOf s j = .applied ↔ j ∈ s.applied := by
  unfold statusOf
  split
  · simp [*]
  · split <;> simp [*]

/-- The offset loop of `getAdjustedStartLineForHunk` sums, over all earlier
indices with `applied` status, the recorded net line change. -/
theorem adjOffset_eq_sum (s : ReviewState) (k : Nat) :
    adjOffset s k =
      ∑ j ∈ Finset.range k,
        if statusOf s j = .applied then (s.netDelta.lookup j).getD 0 else 0 := by
  induction k with
  | zero => rfl
  | succ k ih =>
    unfold adjOffset at ih ⊢
    rw [List.range_succ, List.foldl_append, ih, Finset.sum_range_succ]
    by_cases hj : k ∈ s.applied
    · simp [hj, (statusOf_eq_applied_iff s k).2 hj]
    · have : ¬ statusOf s k = .applied := fun h => hj ((statusOf_eq_applied_iff s k).1 h)
      simp [hj, this]

/-- With an empty applied set the offset loop contributes nothing. -/
theorem adjOffset_of_no_applied (s : ReviewState) (h : s.applied = []) (k : Nat) :
    adjOffset s k = 0 := by
  rw [adjOffset_eq_sum]
  refine Finset.sum_eq_zero fun j _ => ?_
  have : ¬ statusOf s j = .applied := fun hap => by
    have := (statusOf_eq_applied_iff s j).1 hap
    simp [h] at this
  simp [this]

/-- C3: for every hunk index `i` of an active session whose hunk exists,
`getAdjustedStartLineForHunk i` returns `oldStart − 1` plus the sum of the
recorded net line deltas of all `j < i` with `applied` status; in particular,
before any hunk has been applied it returns `oldStart − 1`. -/
theorem C3_adjusted_start (s : ReviewState) (i : Nat) (c : Chunk)
    (hc : s.chunks[i]? = some c) :
    getAdjustedStartLineForHunk (some s) i =
      .ok ((c.oldStart : Int) - 1 +
        ∑ j ∈ Finset.range i,
          if statusOf s j = .applied then (s.netDelta.lookup j).getD 0 else 0) ∧
    (s.applied = [] →
      getAdjustedStartLineForHunk (some s) i = .ok ((c.oldStart : Int) - 1)) := by
  have hval : getAdjustedStartLineForHunk (some s) i = .ok (adjStart s c i) := by
    show (match s.chunks[i]? with
      | none => Except.error JsError.undefinedProperty
      | some c => Except.ok (adjStart s c i)) = Except.ok (adjStart s c i)
    rw [hc]
  constructor
  · rw [hval, show adjStart s c i = (c.oldStart : Int) - 1 + adjOffset s i from rfl,
      adjOffset_eq_sum]
  · intro hap
    rw [hval, show adjStart s c i = (c.oldStart : Int) - 1 + adjOffset s i from rfl,
      adjOffset_of_no_applied s hap]
    simp

/-- C3, witness: a concrete two-hunk session with hunk 0 applied at a
measured delta of `+2`; the adjusted start of hunk 1 is `3 − 1 + 2 = 4`,
and on a fresh session it would be `3 − 1 = 2`. -/
theorem C3_adjusted_start_witness :
    getAdjustedStartLineForHunk
        (some ⟨[⟨1, 1, 1, 3, []⟩, ⟨3, 1, 5, 1, []⟩], [0], [], [(0, 2)], some 1⟩) 1 =
      .ok 4 ∧
    getAdjustedStartLineForHunk
        (some ⟨[⟨1, 1, 1, 3, []⟩, ⟨3, 1, 5, 1, []⟩], [], [], [], some 0⟩) 1 =
      .ok 2 := by
  constructor
  · rw [(C3_adjusted_start ⟨[⟨1, 1, 1, 3, []⟩, ⟨3, 1, 5, 1, []⟩], [0], [], [(0, 2)], some 1⟩
      1 ⟨3, 1, 5, 1, []⟩ (by decide)).1]
    rfl
  · rw [(C3_adjusted_start ⟨[⟨1, 1, 1, 3, []⟩, ⟨3, 1, 5, 1, []⟩], [], [], [], some 0⟩
      1 ⟨3, 1, 5, 1, []⟩ (by decide)).2 rfl]
    rfl

/-- `statusOf` reports `pending` exactly for indices in neither set. -/
theorem statusOf_eq_pending_iff (s : ReviewState) (j : Nat) :
    statusOf s j = .pending ↔ ¬ (j ∈ s.applied ∨ j ∈ s.skipped) := by
  unfold statusOf
  split
  · simp [*]
  · split <;> simp [*]

/-- Membership in a JS `Set` after `add`. -/
theorem mem_setAdd (l : List Nat) (i j : Nat) : j ∈ setAdd l i ↔ j = i ∨ j ∈ l := by
  unfold setAdd
  split
  · constructor
    · exact fun h => Or.inr h
    · rintro (rfl | h) <;> assumption
  · simp [or_comm]

/-- `getAdjustedStartLineForHunk` only reads the chunk list, the applied set
and the delta map of the session. -/
theorem getAdjusted_congr (s s' : ReviewState) (h1 : s'.chunks = s.chunks)
    (h2 : s'.applied = s.applied) (h3 : s'.netDelta = s.netDelta) (k : Nat) :
    getAdjustedStartLineForHunk (some s') k = getAdjustedStartLineForHunk (some s) k := by
  show (match s'.chunks[k]? with
    | none => Except.error JsError.undefinedProperty
    | some c => Except.ok (adjStart s' c k)) =
    (match s.chunks[k]? with
    | none => Except.error JsError.undefinedProperty
    | some c => Except.ok (adjStart s c k))
  unfold adjStart adjOffset
  rw [h1, h2, h3]

/-- C9, counterexample: applying the only hunk of a session terminates the
session (the global slot becomes `undefined`), after which
`getAdjustedStartLineForHunk` with the out-of-range index 5 returns the
plain value `-1` — it does not fail with any error. -/
theorem C9_counterexample :
    (applyHunkOnly true
        ⟨splitLines "a\nb\n", some (startSession [⟨1, 1, 1, 1, [⟨.del, "-a"⟩, ⟨.add, "+A"⟩]⟩])⟩
        0).session = none ∧
    getAdjustedStartLineForHunk
        (applyHunkOnly true
          ⟨splitLines "a\nb\n", some (startSession [⟨1, 1, 1, 1, [⟨.del, "-a"⟩, ⟨.add, "+A"⟩]⟩])⟩
          0).session 5 = .ok (-1) := by
  decide

/-- C9, amended: with no active session (in particular after every hunk of a
session has been applied, which clears the global session slot)
`getAdjustedStartLineForHunk` returns the sentinel `-1` for every index; an
out-of-range index fails (reading `.oldStart` of `undefined` throws) only
while a session is active, and that failure changes no state. -/
theorem C9_amended (s : ReviewState) (i : Nat) (editOk : Nat → Bool) (st : EditorState) :
    getAdjustedStartLineForHunk none i = .ok (-1) ∧
    (s.chunks.length ≤ i →
      getAdjustedStartLineForHunk (some s) i = .error .undefinedProperty) ∧
    ((applyAllRemaining editOk st).session = none →
      getAdjustedStartLineForHunk (applyAllRemaining editOk st).session i = .ok (-1)) := by
  refine ⟨rfl, fun hi => ?_, fun hs => ?_⟩
  · show (match s.chunks[i]? with
      | none => Except.error JsError.undefinedProperty
      | some c => Except.ok (adjStart s c i)) = Except.error JsError.undefinedProperty
    rw [List.getElem?_eq_none hi]
  · rw [hs]
    rfl

/-- C9, witness for the amended statement: a one-hunk session, index 5. -/
theorem C9_amended_witness :
    getAdjustedStartLineForHunk none 5 = .ok (-1) ∧
    getAdjustedStartLineForHunk
        (some (startSession [⟨1, 1, 1, 1, [⟨.del, "-a"⟩, ⟨.add, "+A"⟩]⟩])) 5 =
      .error .undefinedProperty ∧
    getAdjustedStartLineForHunk
        (applyAllRemaining (fun _ => true)
          ⟨splitLines "a\nb\n",
           some (startSession [⟨1, 1, 1, 1, [⟨.del, "-a"⟩, ⟨.add, "+A"⟩]⟩])⟩).session 5 =
      .ok (-1) := by
  obtain ⟨ha, hb, hc⟩ := C9_amended (startSession [⟨1, 1, 1, 1, [⟨.del, "-a"⟩, ⟨.add, "+A"⟩]⟩])
    5 (fun _ => true)
    ⟨splitLines "a\nb\n", some (startSession [⟨1, 1, 1, 1, [⟨.del, "-a"⟩, ⟨.add, "+A"⟩]⟩])⟩
  exact ⟨ha, hb (by decide), hc (by decide)⟩

/-- C7, counterexample: in a two-hunk session whose second hunk is already
skipped, skipping hunk 0 completes the review, so the session self-destructs
and `getAdjustedStartLineForHunk 1` afterwards returns the no-session
sentinel `-1` instead of its previous value `3` — the skip did change the
reported adjusted start of the later hunk (and destroyed every session
field), contradicting the claim. -/
theorem C7_counterexample :
    (skipHunk ⟨["a", "b", "c", "d", ""],
        some ⟨[⟨2, 1, 2, 1, []⟩, ⟨4, 1, 4, 1, []⟩], [], [1], [], some 0⟩⟩ 0).doc =
      ["a", "b", "c", "d", ""] ∧
    getAdjustedStartLineForHunk
        (skipHunk ⟨["a", "b", "c", "d", ""],
          some ⟨[⟨2, 1, 2, 1, []⟩, ⟨4, 1, 4, 1, []⟩], [], [1], [], some 0⟩⟩ 0).session 1 ≠
      getAdjustedStartLineForHunk
        (some ⟨[⟨2, 1, 2, 1, []⟩, ⟨4, 1, 4, 1, []⟩], [], [1], [], some 0⟩) 1 := by
  decide

/-- C7, amended: provided some hunk other than `i` is still pending (so the
skip does not complete the review and the session stays open), `skipHunk i`
performs no document mutation, adds no `netLineDelta` entry, leaves the
adjusted start line of every hunk — in particular every later hunk — as it
was, and changes no session field other than the skipped set (only at `i`)
and the advanced `activeHunk`. -/
theorem C7_amended (d : List String) (s : ReviewState) (i : Nat)
    (hsurvive : ∃ j, j < s.chunks.length ∧ j ≠ i ∧ statusOf s j = .pending) :
    ∃ s', skipHunk ⟨d, some s⟩ i = ⟨d, some s'⟩ ∧
      s'.chunks = s.chunks ∧
      s'.applied = s.applied ∧
      s'.netDelta = s.netDelta ∧
      (∀ k, getAdjustedStartLineForHunk (some s') k = getAdjustedStartLineForHunk (some s) k) ∧
      (∀ j, j ≠ i → statusOf s' j = statusOf s j) := by
  obtain ⟨j, hjlen, hji, hjpending⟩ := hsurvive
  have hjmem := (statusOf_eq_pending_iff s j).1 hjpending
  by_cases hap : i ∈ s.applied
  · refine ⟨s, ?_, rfl, rfl, rfl, fun k => rfl, fun _ _ => rfl⟩
    simp only [skipHunk]
    rw [if_pos hap]
  · have hnotall : ¬ (allProcessed { s with skipped := setAdd s.skipped i } = true) := by
      intro hall
      have h := List.all_eq_true.1 hall j (List.mem_range.2 hjlen)
      simp only [decide_eq_true_eq, mem_setAdd] at h
      rcases h with h | (h | h)
      · exact hjmem (Or.inl h)
      · exact hji h
      · exact hjmem (Or.inr h)
    refine ⟨{ s with
        skipped := setAdd s.skipped i
        activeHunk := some ((nextPending { s with skipped := setAdd s.skipped i }).getD i) },
      ?_, rfl, rfl, rfl, fun k => getAdjusted_congr _ _ rfl rfl rfl k, fun j' hj' => ?_⟩
    · simp only [skipHunk]
      rw [if_neg hap, if_neg hnotall]
    · have hmem : j' ∈ setAdd s.skipped i ↔ j' ∈ s.skipped := by
        rw [mem_setAdd]
        constructor
        · rintro (rfl | h)
          · exact absurd rfl hj'
          · exact h
        · exact Or.inr
      show (if j' ∈ s.applied then HunkStatus.applied
        else if j' ∈ setAdd s.skipped i then HunkStatus.skipped else HunkStatus.pending) =
        (if j' ∈ s.applied then HunkStatus.applied
        else if j' ∈ s.skipped then HunkStatus.skipped else HunkStatus.pending)
      simp only [hmem]

/-- C7, witness for the amended statement: skipping hunk 0 of a fresh
three-hunk session (hunk 1 still pending keeps the session open). -/
theorem C7_amended_witness :
    ∃ s', skipHunk ⟨["x", "y", "z", ""],
        some (startSession [⟨1, 1, 1, 1, []⟩, ⟨2, 1, 2, 1, []⟩, ⟨3, 1, 3, 1, []⟩])⟩ 0 =
        ⟨["x", "y", "z", ""], some s'⟩ ∧
      s'.chunks = (startSession [⟨1, 1, 1, 1, []⟩, ⟨2, 1, 2, 1, []⟩, ⟨3, 1, 3, 1, []⟩]).chunks ∧
      s'.applied = (startSession [⟨1, 1, 1, 1, []⟩, ⟨2, 1, 2, 1, []⟩, ⟨3, 1, 3, 1, []⟩]).applied ∧
      s'.netDelta = (startSession [⟨1, 1, 1, 1, []⟩, ⟨2, 1, 2, 1, []⟩, ⟨3, 1, 3, 1, []⟩]).netDelta ∧
      (∀ k, getAdjustedStartLineForHunk (some s') k =
        getAdjustedStartLineForHunk
          (some (startSession [⟨1, 1, 1, 1, []⟩, ⟨2, 1, 2, 1, []⟩, ⟨3, 1, 3, 1, []⟩])) k) ∧
      (∀ j, j ≠ 0 → statusOf s' j =
        statusOf (startSession [⟨1, 1, 1, 1, []⟩, ⟨2, 1, 2, 1, []⟩, ⟨3, 1, 3, 1, []⟩]) j) := by
  exact C7_amended ["x", "y", "z", ""]
    (startSession [⟨1, 1, 1, 1, []⟩, ⟨2, 1, 2, 1, []⟩, ⟨3, 1, 3, 1, []⟩]) 0
    ⟨1, by decide, by decide, by decide⟩

/-- `allProcessed` only reads the chunk list and the two status sets. -/
theorem allProcessed_congr (s s' : ReviewState) (h1 : s'.chunks = s.chunks)
    (h2 : s'.applied = s.applied) (h3 : s'.skipped = s.skipped) :
    allProcessed s' = allProcessed s := by
  unfold allProcessed
  rw [h1, h2, h3]

/-- The session record written by a successful apply: the hunk joins the
applied set and its measured net line change heads the delta map. -/
def recordApplied (s : ReviewState) (i : Nat) (delta : Int) : ReviewState :=
  { s with applied := setAdd s.applied i, netDelta := (i, delta) :: s.netDelta }

/-- The success branch of `applyHunkOnly`, written out as a function of the
inputs: the spliced document, then either a cleared session or the updated
record with the preview advanced. -/
def applySuccessResult (d : List String) (s : ReviewState) (i : Nat) (hunk : Chunk) :
    EditorState :=
  let newDoc := splice d (adjStart s hunk i).toNat hunk.oldLines (hunkNewText hunk)
  let s' := recordApplied s i ((newDoc.length : Int) - (d.length : Int))
  if allProcessed s' then ⟨newDoc, none⟩
  else ⟨newDoc, some { s' with activeHunk := some ((nextPending s').getD i) }⟩

/-- On a pending hunk with an in-bounds adjusted range and a cooperating
editor, `applyHunkOnly` takes its success branch. -/
theorem applyHunkOnly_success_eq (d : List String) (s : ReviewState) (i : Nat) (hunk : Chunk)
    (hpend : statusOf s i = .pending)
    (hc : s.chunks[i]? = some hunk)
    (hadj : 0 ≤ adjStart s hunk i)
    (hbound : adjStart s hunk i + hunk.oldLines ≤ (d.length : Int)) :
    applyHunkOnly true ⟨d, some s⟩ i = applySuccessResult d s i hunk := by
  have hmem := (statusOf_eq_pending_iff s i).1 hpend
  have hfail : ¬ ((adjStart s hunk i < 0 ∨
      (0 < hunk.oldLines ∧ (d.length : Int) < adjStart s hunk i + hunk.oldLines)) ∧
      ¬ (hunk.oldLines = 0 ∧ adjStart s hunk i ≤ (d.length : Int))) := by
    rintro ⟨h1 | h1, -⟩
    · exact absurd hadj (not_le.2 h1)
    · exact absurd hbound (not_le.2 h1.2)
  simp only [applyHunkOnly, applySuccessResult, recordApplied, hc]
  rw [if_neg hmem, if_neg hfail, if_neg (not_lt.2 hadj), if_pos trivial]

/-- C6: a successful `applyHunkOnly` on a pending hunk with an in-bounds
adjusted range replaces exactly the lines `[adjStart, adjStart + oldLines)`
with the hunk's new text, terminates the session exactly when every hunk has
then reached a terminal status, and otherwise records the hunk as `applied`
with a `netLineDelta` entry equal to the measured document line count after
the edit minus the line count before it (not the declared
`newLineCount − oldLineCount`). -/
theorem C6_apply_success (d : List String) (s : ReviewState) (i : Nat) (hunk : Chunk)
    (hpend : statusOf s i = .pending)
    (hc : s.chunks[i]? = some hunk)
    (hadj : 0 ≤ adjStart s hunk i)
    (hbound : adjStart s hunk i + hunk.oldLines ≤ (d.length : Int)) :
    (applyHunkOnly true ⟨d, some s⟩ i).doc =
        splice d (adjStart s hunk i).toNat hunk.oldLines (hunkNewText hunk) ∧
    ((applyHunkOnly true ⟨d, some s⟩ i).session = none ↔
        allProcessed { s with applied := setAdd s.applied i } = true) ∧
    (∀ s', (applyHunkOnly true ⟨d, some s⟩ i).session = some s' →
        statusOf s' i = .applied ∧
        s'.netDelta.lookup i =
          some (((splice d (adjStart s hunk i).toNat hunk.oldLines
            (hunkNewText hunk)).length : Int) - (d.length : Int))) := by
  rw [applyHunkOnly_success_eq d s i hunk hpend hc hadj hbound]
  have hcongr : allProcessed (recordApplied s i
      (((splice d (adjStart s hunk i).toNat hunk.oldLines (hunkNewText hunk)).length : Int)
        - (d.length : Int))) =
      allProcessed { s with applied := setAdd s.applied i } :=
    allProcessed_congr _ _ rfl rfl rfl
  simp only [applySuccessResult]
  split
  case isTrue hall =>
    refine ⟨rfl, ?_, fun s' h' => by cases h'⟩
    simp only [true_iff, iff_true]
    rw [← hcongr]
    exact hall
  case isFalse hall =>
    refine ⟨rfl, ?_, fun s' h' => ?_⟩
    · constructor
      · intro h; cases h
      · intro h
        rw [← hcongr] at h
        exact absurd h hall
    · cases h'
      constructor
      · unfold statusOf
        have hin : i ∈ (recordApplied s i
            (((splice d (adjStart s hunk i).toNat hunk.oldLines
              (hunkNewText hunk)).length : Int) - (d.length : Int))).applied :=
          (mem_setAdd _ _ _).2 (Or.inl rfl)
        rw [if_pos hin]
      · simp [recordApplied, List.lookup]

/-- C6, witness: applying hunk 0 of a fresh two-hunk session over
`"a\nb\nc\n"`; the edit replaces line `a` by `A`, the session survives
(hunk 1 is still pending), the recorded measured delta is `0`. -/
theorem C6_apply_success_witness :
    (applyHunkOnly true ⟨["a", "b", "c", ""],
        some (startSession [⟨1, 1, 1, 1, [⟨.del, "-a"⟩, ⟨.add, "+A"⟩]⟩,
          ⟨3, 1, 3, 1, [⟨.del, "-c"⟩, ⟨.add, "+C"⟩]⟩])⟩ 0).doc = ["A", "b", "c", ""] ∧
    statusOf ⟨[⟨1, 1, 1, 1, [⟨.del, "-a"⟩, ⟨.add, "+A"⟩]⟩,
        ⟨3, 1, 3, 1, [⟨.del, "-c"⟩, ⟨.add, "+C"⟩]⟩], [0], [], [(0, 0)], some 1⟩ 0 =
      .applied ∧
    List.lookup 0 (ReviewState.netDelta ⟨[⟨1, 1, 1, 1, [⟨.del, "-a"⟩, ⟨.add, "+A"⟩]⟩,
        ⟨3, 1, 3, 1, [⟨.del, "-c"⟩, ⟨.add, "+C"⟩]⟩], [0], [], [(0, 0)], some 1⟩) = some 0 := by
  obtain ⟨hd, -, hs⟩ := C6_apply_success ["a", "b", "c", ""]
    (startSession [⟨1, 1, 1, 1, [⟨.del, "-a"⟩, ⟨.add, "+A"⟩]⟩,
      ⟨3, 1, 3, 1, [⟨.del, "-c"⟩, ⟨.add, "+C"⟩]⟩]) 0
    ⟨1, 1, 1, 1, [⟨.del, "-a"⟩, ⟨.add, "+A"⟩]⟩
    (by decide) (by decide) (by decide) (by decide)
  obtain ⟨hstat, hdelta⟩ := hs
    ⟨[⟨1, 1, 1, 1, [⟨.del, "-a"⟩, ⟨.add, "+A"⟩]⟩,
      ⟨3, 1, 3, 1, [⟨.del, "-c"⟩, ⟨.add, "+C"⟩]⟩], [0], [], [(0, 0)], some 1⟩
    (by decide)
  exact ⟨hd.trans (by decide), hstat, hdelta.trans (by decide)⟩

/-! ## Status-transition machinery (used for the state-machine invariant) -/

/-- One user-triggered engine operation of the review session. -/
inductive SessionOp where
  | applyOne (editOk : Bool) (i : Nat) : SessionOp
  | skipOne (i : Nat) : SessionOp
  | applyAll (editOk : Nat → Bool) : SessionOp
  | preview (i : Nat) : SessionOp

/-- Dispatch one operation against the current editor state. -/
def stepOp (st : EditorState) : SessionOp → EditorState
  | .applyOne ok i => applyHunkOnly ok st i
  | .skipOne i => skipHunk st i
  | .applyAll ok => applyAllRemaining ok st
  | .preview i => previewHunk st i

/-- Run a sequence of operations. -/
def runOps (st : EditorState) (ops : List SessionOp) : EditorState :=
  ops.foldl stepOp st

/-- Between two session snapshots: the status sets only grow, and they only
absorb indices that were `pending` before. -/
def StatusMono (s s' : ReviewState) : Prop :=
  (∀ m ∈ s.applied, m ∈ s'.applied) ∧
  (∀ m ∈ s.skipped, m ∈ s'.skipped) ∧
  (∀ m ∈ s'.applied, m ∈ s.applied ∨ statusOf s m = .pending) ∧
  (∀ m ∈ s'.skipped, m ∈ s.skipped ∨ statusOf s m = .pending)

theorem statusMono_of_eq (s s' : ReviewState) (h1 : s'.applied = s.applied)
    (h2 : s'.skipped = s.skipped) : StatusMono s s' := by
  refine ⟨?_, ?_, ?_, ?_⟩ <;> intro m hm <;> simp_all

theorem statusMono_refl (s : ReviewState) : StatusMono s s :=
  statusMono_of_eq s s rfl rfl

theorem statusOf_eq_of_mono {s s' : ReviewState} (h : StatusMono s s') (i : Nat)
    (hterm : statusOf s i ≠ .pending) : statusOf s' i = statusOf s i := by
  obtain ⟨hfa, hfs, hba, hbs⟩ := h
  unfold statusOf at *
  by_cases ha : i ∈ s.applied
  · rw [if_pos ha, if_pos (hfa i ha)]
  · rw [if_neg ha]
    by_cases hs : i ∈ s.skipped
    · rw [if_pos hs]
      have ha' : i ∉ s'.applied := fun hm => by
        rcases hba i hm with h | h
        · exact ha h
        · rw [if_neg ha, if_pos hs] at h
          cases h
      rw [if_neg ha', if_pos (hfs i hs)]
    · exact absurd (by rw [if_neg ha, if_neg hs]) hterm

theorem statusMono_trans {s₁ s₂ s₃ : ReviewState} (h12 : StatusMono s₁ s₂)
    (h23 : StatusMono s₂ s₃) : StatusMono s₁ s₃ := by
  obtain ⟨fa12, fs12, ba12, bs12⟩ := h12
  obtain ⟨fa23, fs23, ba23, bs23⟩ := h23
  have pend21 : ∀ m, statusOf s₂ m = .pending → statusOf s₁ m = .pending := by
    intro m hm
    rw [statusOf_eq_pending_iff] at hm ⊢
    rintro (h | h)
    · exact hm (Or.inl (fa12 m h))
    · exact hm (Or.inr (fs12 m h))
  refine ⟨fun m hm => fa23 m (fa12 m hm), fun m hm => fs23 m (fs12 m hm),
    fun m hm => ?_, fun m hm => ?_⟩
  · rcases ba23 m hm with h | h
    · exact ba12 m h
    · exact Or.inr (pend21 m h)
  · rcases bs23 m hm with h | h
    · exact bs12 m h
    · exact Or.inr (pend21 m h)

/-- A pending index joining the applied set is a monotone status step. -/
theorem statusMono_recordApplied (s : ReviewState) (i : Nat) (delta : Int)
    (hp : ¬ (i ∈ s.applied ∨ i ∈ s.skipped)) : StatusMono s (recordApplied s i delta) := by
  refine ⟨fun m hm => ?_, fun m hm => hm, fun m hm => ?_, fun m hm => Or.inl hm⟩
  · exact (mem_setAdd _ _ _).2 (Or.inr hm)
  · rcases (mem_setAdd _ _ _).1 hm with rfl | hm'
    · exact Or.inr ((statusOf_eq_pending_iff s m).2 hp)
    · exact Or.inl hm'

/-- A not-yet-applied index joining the skipped set is a monotone step. -/
theorem statusMono_addSkipped (s : ReviewState) (i : Nat) (hp : i ∉ s.applied) :
    StatusMono s { s with skipped := setAdd s.skipped i } := by
  refine ⟨fun m hm => hm, fun m hm => (mem_setAdd _ _ _).2 (Or.inr hm),
    fun m hm => Or.inl hm, fun m hm => ?_⟩
  rcases (mem_setAdd _ _ _).1 hm with rfl | hm'
  · by_cases hsk : m ∈ s.skipped
    · exact Or.inl hsk
    · exact Or.inr ((statusOf_eq_pending_iff s m).2 (by tauto))
  · exact Or.inl hm'

/-- `applyHunkOnly` moves the status sets monotonically. -/
theorem applyHunkOnly_mono (ok : Bool) (d : List String) (s : ReviewState) (i : Nat)
    (d' : List String) (s' : ReviewState)
    (h : applyHunkOnly ok ⟨d, some s⟩ i = ⟨d', some s'⟩) : StatusMono s s' := by
  simp only [applyHunkOnly] at h
  split at h
  case isTrue => cases h; exact statusMono_refl s
  case isFalse hnp =>
    split at h
    · cases h
      exact statusMono_refl s
    case h_2 hunk hc =>
      split at h
      · cases h
        exact statusMono_refl s
      · split at h
        · cases h
          exact statusMono_refl s
        · split at h
          · split at h
            · cases h
            · cases h
              exact statusMono_trans
                (statusMono_recordApplied s i
                  (((splice d (adjStart s hunk i).toNat hunk.oldLines
                    (hunkNewText hunk)).length : Int) - (d.length : Int)) hnp)
                (statusMono_of_eq _ _ rfl rfl)
          · cases h
            exact statusMono_of_eq _ _ rfl rfl

/-- `skipHunk` moves the status sets monotonically. -/
theorem skipHunk_mono (d : List String) (s : ReviewState) (i : Nat)
    (d' : List String) (s' : ReviewState)
    (h : skipHunk ⟨d, some s⟩ i = ⟨d', some s'⟩) : StatusMono s s' := by
  simp only [skipHunk] at h
  split at h
  · cases h
    exact statusMono_refl s
  case isFalse hap =>
    split at h
    · cases h
    · cases h
      exact statusMono_trans (statusMono_addSkipped s i hap) (statusMono_of_eq _ _ rfl rfl)

/-- The `applyAllRemainingInFile` loop moves the status sets monotonically. -/
theorem applyAllRemainingGo_mono (ok : Nat → Bool) :
    ∀ (l : List (Nat × Chunk)) (doc : List String) (s : ReviewState)
      (d' : List String) (s' : ReviewState),
      applyAllRemainingGo ok doc s l = ⟨d', some s'⟩ → StatusMono s s'
  | [], doc, s, d', s', h => by cases h
  | (i, hunk) :: rest, doc, s, d', s', h => by
    simp only [applyAllRemainingGo] at h
    split at h
    · exact applyAllRemainingGo_mono ok rest doc s d' s' h
    case isFalse hnp =>
      split at h
      · cases h
        exact statusMono_refl s
      · split at h
        · exact statusMono_trans
            (statusMono_recordApplied s i
              (((splice doc (adjStart s hunk i).toNat hunk.oldLines
                (hunkNewText hunk)).length : Int) - (doc.length : Int)) hnp)
            (applyAllRemainingGo_mono ok rest _ _ d' s'
              (by exact h))
        · cases h
          exact statusMono_refl s

/-- Every operation dispatched on an active session moves statuses
monotonically (when the session survives). -/
theorem stepOp_mono (op : SessionOp) (st : EditorState) (s s' : ReviewState)
    (hst : st.session = some s) (h : (stepOp st op).session = some s') :
    StatusMono s s' := by
  have hsteta : st = ⟨st.doc, some s⟩ := by
    cases st
    cases hst
    rfl
  cases op with
  | applyOne ok i =>
    rw [hsteta] at h
    have h' : (applyHunkOnly ok ⟨st.doc, some s⟩ i).session = some s' := h
    cases hres : applyHunkOnly ok ⟨st.doc, some s⟩ i with
    | mk d₂ sess₂ =>
      rw [hres] at h'
      cases h'
      exact applyHunkOnly_mono ok st.doc s i d₂ s' hres
  | skipOne i =>
    rw [hsteta] at h
    have h' : (skipHunk ⟨st.doc, some s⟩ i).session = some s' := h
    cases hres : skipHunk ⟨st.doc, some s⟩ i with
    | mk d₂ sess₂ =>
      rw [hres] at h'
      cases h'
      exact skipHunk_mono st.doc s i d₂ s' hres
  | applyAll ok =>
    rw [hsteta] at h
    have h' : (applyAllRemainingGo ok st.doc s s.chunks.enum).session = some s' := h
    cases hres : applyAllRemainingGo ok st.doc s s.chunks.enum with
    | mk d₂ sess₂ =>
      rw [hres] at h'
      cases h'
      exact applyAllRemainingGo_mono ok s.chunks.enum st.doc s d₂ s' hres
  | preview i =>
    rw [hsteta] at h
    have h' : (previewHunk ⟨st.doc, some s⟩ i).session = some s' := h
    simp only [previewHunk] at h'
    cases h'
    exact statusMono_of_eq _ _ rfl rfl

/-- Operations do nothing once the session slot is empty. -/
theorem stepOp_none (op : SessionOp) (st : EditorState) (h : st.session = none) :
    stepOp st op = st := by
  have hsteta : st = ⟨st.doc, none⟩ := by
    cases st
    cases h
    rfl
  rw [hsteta]
  cases op <;> rfl

theorem runOps_none (ops : List SessionOp) (st : EditorState) (h : st.session = none) :
    runOps st ops = st := by
  induction ops with
  | nil => rfl
  | cons op ops ih =>
    show runOps (stepOp st op) ops = st
    rw [stepOp_none op st h]
    exact ih

/-- The run of an operation sequence relates start and end sessions
monotonically. -/
theorem runOps_mono (ops : List SessionOp) (st : EditorState) (s s' : ReviewState)
    (hst : st.session = some s) (h : (runOps st ops).session = some s') :
    StatusMono s s' := by
  induction ops generalizing st s with
  | nil =>
    have h' : st.session = some s' := h
    rw [hst] at h'
    cases h'
    exact statusMono_refl _
  | cons op ops ih =>
    have h' : (runOps (stepOp st op) ops).session = some s' := h
    cases hs₁ : (stepOp st op).session with
    | none =>
      rw [runOps_none ops _ hs₁, hs₁] at h'
      cases h'
    | some s₁ =>
      exact statusMono_trans (stepOp_mono op st s s₁ hst hs₁) (ih (stepOp st op) s₁ hs₁ h')

/-- C8: once a hunk's status is terminal it never changes again under any
sequence of operations while the session survives; `applyHunkOnly` on a
non-pending hunk and `skipHunk` on an applied hunk leave the editor state
entirely unchanged, so the only transitions are pending→applied and
pending→skipped. -/
theorem C8_terminal_stable :
    (∀ (ops : List SessionOp) (st : EditorState) (s s' : ReviewState) (i : Nat),
      st.session = some s → (runOps st ops).session = some s' →
      statusOf s i ≠ .pending → statusOf s' i = statusOf s i) ∧
    (∀ (ok : Bool) (st : EditorState) (s : ReviewState) (i : Nat),
      st.session = some s → statusOf s i ≠ .pending → applyHunkOnly ok st i = st) ∧
    (∀ (st : EditorState) (s : ReviewState) (i : Nat),
      st.session = some s → statusOf s i = .applied → skipHunk st i = st) := by
  refine ⟨fun ops st s s' i hst h hterm =>
    statusOf_eq_of_mono (runOps_mono ops st s s' hst h) i hterm,
    fun ok st s i hst hterm => ?_, fun st s i hst happ => ?_⟩
  · have hmem : i ∈ s.applied ∨ i ∈ s.skipped := by
      by_contra hq
      exact hterm ((statusOf_eq_pending_iff s i).2 hq)
    have hsteta : st = ⟨st.doc, some s⟩ := by
      cases st
      cases hst
      rfl
    rw [hsteta]
    simp only [applyHunkOnly]
    rw [if_pos hmem]
  · have hmem : i ∈ s.applied := by
      by_contra hq
      unfold statusOf at happ
      rw [if_neg hq] at happ
      split at happ <;> cases happ
    have hsteta : st = ⟨st.doc, some s⟩ := by
      cases st
      cases hst
      rfl
    rw [hsteta]
    simp only [skipHunk]
    rw [if_pos hmem]

/-- C8, witness: a two-hunk session with hunk 0 applied; a mixed sequence of
operations (a preview, a skip attempt on the applied hunk, a re-apply
attempt, an apply-all with a rejecting editor) leaves hunk 0 `applied`, and
the two no-op commands return the state unchanged. -/
theorem C8_terminal_stable_witness :
    statusOf ⟨[⟨1, 1, 1, 1, []⟩, ⟨3, 1, 3, 1, []⟩], [0], [], [(0, 0)], some 1⟩ 0 =
      statusOf ⟨[⟨1, 1, 1, 1, []⟩, ⟨3, 1, 3, 1, []⟩], [0], [], [(0, 0)], some 1⟩ 0 ∧
    applyHunkOnly true ⟨["A", "b", "c", ""],
        some ⟨[⟨1, 1, 1, 1, []⟩, ⟨3, 1, 3, 1, []⟩], [0], [], [(0, 0)], some 1⟩⟩ 0 =
      ⟨["A", "b", "c", ""],
        some ⟨[⟨1, 1, 1, 1, []⟩, ⟨3, 1, 3, 1, []⟩], [0], [], [(0, 0)], some 1⟩⟩ ∧
    skipHunk ⟨["A", "b", "c", ""],
        some ⟨[⟨1, 1, 1, 1, []⟩, ⟨3, 1, 3, 1, []⟩], [0], [], [(0, 0)], some 1⟩⟩ 0 =
      ⟨["A", "b", "c", ""],
        some ⟨[⟨1, 1, 1, 1, []⟩, ⟨3, 1, 3, 1, []⟩], [0], [], [(0, 0)], some 1⟩⟩ := by
  obtain ⟨hrun, happ, hskip⟩ := C8_terminal_stable
  refine ⟨?_, ?_, ?_⟩
  · exact hrun [.preview 1, .skipOne 0, .applyOne true 0, .applyAll (fun _ => false)]
      ⟨["A", "b", "c", ""], some ⟨[⟨1, 1, 1, 1, []⟩, ⟨3, 1, 3, 1, []⟩], [0], [], [(0, 0)], some 1⟩⟩
      ⟨[⟨1, 1, 1, 1, []⟩, ⟨3, 1, 3, 1, []⟩], [0], [], [(0, 0)], some 1⟩
      ⟨[⟨1, 1, 1, 1, []⟩, ⟨3, 1, 3, 1, []⟩], [0], [], [(0, 0)], some 1⟩ 0
      rfl (by decide) (by decide)
  · exact happ true
      ⟨["A", "b", "c", ""], some ⟨[⟨1, 1, 1, 1, []⟩, ⟨3, 1, 3, 1, []⟩], [0], [], [(0, 0)], some 1⟩⟩
      ⟨[⟨1, 1, 1, 1, []⟩, ⟨3, 1, 3, 1, []⟩], [0], [], [(0, 0)], some 1⟩ 0 rfl (by decide)
  · exact hskip
      ⟨["A", "b", "c", ""], some ⟨[⟨1, 1, 1, 1, []⟩, ⟨3, 1, 3, 1, []⟩], [0], [], [(0, 0)], some 1⟩⟩
      ⟨[⟨1, 1, 1, 1, []⟩, ⟨3, 1, 3, 1, []⟩], [0], [], [(0, 0)], some 1⟩ 0 rfl (by decide)

/-! ## Selection handling: invalid indices and processing order -/

/-- A selection index under a `Nat` cast hits the array like the `Nat` index. -/
theorem lookupHunk_natCast (hunks : List Chunk) (i : Nat) :
    lookupHunk hunks (i : Int) = hunks[i]? := by
  unfold lookupHunk
  rw [if_neg (by omega : ¬ (i : Int) < 0)]
  norm_num

/-- A selection index has a hunk iff it is in `[0, hunks.length)`. -/
theorem lookupHunk_isSome_iff (hunks : List Chunk) (idx : Int) :
    (lookupHunk hunks idx).isSome = true ↔ 0 ≤ idx ∧ idx.toNat < hunks.length := by
  unfold lookupHunk
  split
  case isTrue h =>
    simp only [Option.isSome_none, Bool.false_eq_true, false_iff]
    omega
  case isFalse h =>
    by_cases hlen : idx.toNat < hunks.length
    · rw [List.getElem?_eq_getElem hlen]
      simp only [Option.isSome_some, true_iff]
      omega
    · rw [List.getElem?_eq_none (by omega)]
      simp only [Option.isSome_none, Bool.false_eq_true, false_iff]
      omega

/-- Selection indices with no hunk are no-ops of the `forEach`, so the fold
only sees the valid ones. -/
theorem foldl_applySelectedStep_filter (hunks : List Chunk) :
    ∀ (l : List Int) (lines : List String),
      l.foldl (applySelectedStep hunks) lines =
        (l.filter fun idx => (lookupHunk hunks idx).isSome).foldl
          (applySelectedStep hunks) lines
  | [], _ => rfl
  | idx :: rest, lines => by
    cases hl : lookupHunk hunks idx with
    | none =>
      rw [List.foldl_cons, List.filter_cons_of_neg (by simp [hl])]
      have hstep : applySelectedStep hunks lines idx = lines := by
        unfold applySelectedStep
        rw [hl]
      rw [hstep]
      exact foldl_applySelectedStep_filter hunks rest lines
    | some hunk =>
      rw [List.foldl_cons, List.filter_cons_of_pos (by simp [hl]), List.foldl_cons]
      exact foldl_applySelectedStep_filter hunks rest _

/-- Sorting commutes with filtering on the selection indices. -/
theorem sortDesc_filter (p : Int → Bool) (l : List Int) :
    (sortDesc l).filter p = sortDesc (l.filter p) := by
  refine List.eq_of_perm_of_sorted ?_ ?_ (List.sorted_insertionSort descOrder _)
  · exact ((List.perm_insertionSort descOrder l).filter p).trans
      (List.perm_insertionSort descOrder (l.filter p)).symm
  · exact List.Pairwise.sublist (List.filter_sublist _) (List.sorted_insertionSort descOrder l)

/-- C10: `applySelectedHunksToContent` never fails on selection indices with
no corresponding hunk — they are silently skipped, and the result equals the
result for the selection restricted to its valid indices. -/
theorem C10_invalid_indices_skipped (content : String) (hunks : List Chunk) (sel : List Int) :
    applySelectedHunksToContent content hunks sel =
      applySelectedHunksToContent content hunks
        (sel.filter fun idx => (lookupHunk hunks idx).isSome) := by
  unfold applySelectedHunksToContent
  rw [foldl_applySelectedStep_filter, sortDesc_filter]

/-- The selected hunk indices in descending index order — with hunks ordered
by ascending `oldStart`, this is descending `oldStart` order. -/
def selectedDescIdx (n : Nat) (sel : List Int) : List Nat :=
  ((List.range n).filter fun i => Int.ofNat i ∈ sel).reverse

/-- The selected hunks, in descending order. -/
def selectedDesc (hunks : List Chunk) (sel : List Int) : List Chunk :=
  (selectedDescIdx hunks.length sel).filterMap fun i => hunks[i]?

/-- The spec's `applySelected`: the selected hunks processed in descending
order, each removing `oldLineCount` lines at `oldStart − 1`. -/
def specApplySelected (content : String) (hunks : List Chunk) (sel : List Int) : String :=
  joinLines ((selectedDesc hunks sel).foldl applyChunkStep (splitLines content))

/-- The sorted valid selection is exactly the selected index range in
descending order. -/
theorem sortDesc_filter_valid_eq (hunks : List Chunk) (sel : List Int) (hnd : sel.Nodup) :
    sortDesc (sel.filter fun idx => (lookupHunk hunks idx).isSome) =
      (selectedDescIdx hunks.length sel).map Int.ofNat := by
  refine List.eq_of_perm_of_sorted ?_ (List.sorted_insertionSort _ _) ?_
  · refine (List.perm_ext_iff_of_nodup ?_ ?_).2 fun a => ?_
    · exact ((List.perm_insertionSort descOrder _).nodup_iff).2 (hnd.filter _)
    · refine List.Nodup.map (fun x y h => Int.ofNat.inj h) ?_
      exact (List.nodup_reverse).2 ((List.nodup_range _).filter _)
    · unfold sortDesc
      rw [(List.perm_insertionSort descOrder _).mem_iff, List.mem_filter,
        lookupHunk_isSome_iff, List.mem_map]
      unfold selectedDescIdx
      constructor
      · rintro ⟨hmem, h0, hlen⟩
        refine ⟨a.toNat, ?_, by rw [Int.ofNat_eq_coe]; omega⟩
        rw [List.mem_reverse, List.mem_filter, List.mem_range]
        refine ⟨hlen, ?_⟩
        have hcast : Int.ofNat a.toNat = a := by
          rw [Int.ofNat_eq_coe]
          omega
        rw [hcast]
        simpa using hmem
      · rintro ⟨i, hi, rfl⟩
        rw [List.mem_reverse, List.mem_filter, List.mem_range] at hi
        obtain ⟨hilen, hisel⟩ := hi
        simp only [decide_eq_true_eq] at hisel
        refine ⟨hisel, by simp, ?_⟩
        simpa using hilen
  · rw [List.Sorted, List.pairwise_map]
    unfold selectedDescIdx
    rw [List.pairwise_reverse]
    refine List.Pairwise.imp ?_
      (List.Pairwise.sublist (List.filter_sublist _) (List.pairwise_lt_range _))
    intro a b hab
    show Int.ofNat a ≤ Int.ofNat b
    simp only [Int.ofNat_eq_coe]
    omega

/-- Processing the cast index list equals processing the corresponding hunks. -/
theorem foldl_step_map_cast (hunks : List Chunk) :
    ∀ (idxs : List Nat), (∀ i ∈ idxs, i < hunks.length) → ∀ lines : List String,
      (idxs.map Int.ofNat).foldl (applySelectedStep hunks) lines =
        (idxs.filterMap fun i => hunks[i]?).foldl applyChunkStep lines
  | [], _, _ => rfl
  | i :: rest, hbound, lines => by
    have hi : i < hunks.length := hbound i (List.mem_cons_self i rest)
    have hget : hunks[i]? = some hunks[i] := List.getElem?_eq_getElem hi
    rw [List.map_cons, List.foldl_cons, List.filterMap_cons_some hget, List.foldl_cons]
    have hstep : applySelectedStep hunks lines (Int.ofNat i) = applyChunkStep lines hunks[i] := by
      unfold applySelectedStep
      have : lookupHunk hunks (Int.ofNat i) = hunks[i]? := lookupHunk_natCast hunks i
      rw [this, hget]
    rw [hstep]
    exact foldl_step_map_cast hunks rest (fun j hj => hbound j (List.mem_cons_of_mem i hj)) _

/-- C4: for a duplicate-free selection over a hunk list ordered by strictly
ascending `oldStart`, `applySelectedHunksToContent` applies exactly the
selected hunks positioned by original coordinates (`oldStart − 1`, removing
`oldLineCount` lines), processing them in descending order — an order in
which `oldStart` is descending; in particular the spec's concrete scenario
holds: one hunk at `oldStart = 2` replacing `foo` by `bar` rewrites
`"line1\nfoo\nline3\n"` under selection `{0}` and the empty selection
returns the input unchanged. -/
theorem C4_apply_selected (content : String) (hunks : List Chunk) (sel : List Int)
    (hnd : sel.Nodup) (hasc : hunks.Pairwise fun a b => a.oldStart < b.oldStart) :
    applySelectedHunksToContent content hunks sel = specApplySelected content hunks sel ∧
    (selectedDesc hunks sel).Pairwise (fun a b => b.oldStart ≤ a.oldStart) ∧
    applySelectedHunksToContent "line1\nfoo\nline3\n"
      [⟨2, 1, 2, 1, [⟨.del, "-foo"⟩, ⟨.add, "+bar"⟩]⟩] [0] = "line1\nbar\nline3\n" ∧
    applySelectedHunksToContent "line1\nfoo\nline3\n"
      [⟨2, 1, 2, 1, [⟨.del, "-foo"⟩, ⟨.add, "+bar"⟩]⟩] [] = "line1\nfoo\nline3\n" := by
  refine ⟨?_, ?_, by decide, by decide⟩
  · unfold applySelectedHunksToContent specApplySelected selectedDesc
    rw [foldl_applySelectedStep_filter, sortDesc_filter, sortDesc_filter_valid_eq hunks sel hnd]
    refine congrArg joinLines (foldl_step_map_cast hunks _ (fun i hi => ?_) _)
    unfold selectedDescIdx at hi
    rw [List.mem_reverse, List.mem_filter, List.mem_range] at hi
    exact hi.1
  · unfold selectedDesc
    rw [List.pairwise_filterMap]
    unfold selectedDescIdx
    rw [List.pairwise_reverse]
    refine List.Pairwise.imp ?_
      (List.Pairwise.sublist (List.filter_sublist _) (List.pairwise_lt_range _))
    intro a b hab x hx y hy
    have hxa : hunks[b]? = some x := hx
    have hya : hunks[a]? = some y := hy
    have hb : b < hunks.length := by
      by_contra hq
      rw [List.getElem?_eq_none (by omega)] at hxa
      cases hxa
    have ha : a < hunks.length := by
      by_contra hq
      rw [List.getElem?_eq_none (by omega)] at hya
      cases hya
    have hlt : hunks[a].oldStart < hunks[b].oldStart :=
      List.pairwise_iff_getElem.1 hasc a b ha hb hab
    rw [List.getElem?_eq_getElem hb] at hxa
    rw [List.getElem?_eq_getElem ha] at hya
    cases hxa
    cases hya
    omega

/-- C4, witness: the scenario selection. -/
theorem C4_apply_selected_witness :
    applySelectedHunksToContent "line1\nfoo\nline3\n"
        [⟨2, 1, 2, 1, [⟨.del, "-foo"⟩, ⟨.add, "+bar"⟩]⟩] [0] =
      specApplySelected "line1\nfoo\nline3\n"
        [⟨2, 1, 2, 1, [⟨.del, "-foo"⟩, ⟨.add, "+bar"⟩]⟩] [0] ∧
    (selectedDesc [⟨2, 1, 2, 1, [⟨.del, "-foo"⟩, ⟨.add, "+bar"⟩]⟩] [0]).Pairwise
      (fun a b => b.oldStart ≤ a.oldStart) := by
  obtain ⟨h1, h2, -, -⟩ := C4_apply_selected "line1\nfoo\nline3\n"
    [⟨2, 1, 2, 1, [⟨.del, "-foo"⟩, ⟨.add, "+bar"⟩]⟩] [0] (by decide) (by decide)
  exact ⟨h1, h2⟩

/-! ## Failure handling of the apply commands -/

/-- Status of a hunk other than the one a successful apply records is
untouched. -/
theorem statusOf_recordApplied_ne (s : ReviewState) (i : Nat) (delta : Int) (j : Nat)
    (h : j ≠ i) : statusOf (recordApplied s i delta) j = statusOf s j := by
  unfold statusOf recordApplied
  show (if j ∈ setAdd s.applied i then HunkStatus.applied
    else if j ∈ s.skipped then HunkStatus.skipped else HunkStatus.pending) = _
  have : (j ∈ setAdd s.applied i) ↔ j ∈ s.applied := by
    rw [mem_setAdd]
    constructor
    · rintro (rfl | hm)
      · exact absurd rfl h
      · exact hm
    · exact Or.inr
  simp only [this]

/-- The hunk a successful apply records becomes `applied`. -/
theorem statusOf_recordApplied_self (s : ReviewState) (i : Nat) (delta : Int) :
    statusOf (recordApplied s i delta) i = .applied := by
  unfold statusOf recordApplied
  show (if i ∈ setAdd s.applied i then HunkStatus.applied
    else if i ∈ s.skipped then HunkStatus.skipped else HunkStatus.pending) = _
  rw [if_pos ((mem_setAdd _ _ _).2 (Or.inl rfl))]

/-- "The `applyAllRemainingInFile` loop, run over `l`, proceeds through
successful edits and then hits an editor rejection exactly at hunk `f`":
a computable replay of the loop against the editor verdicts. -/
def reachesFailureB (ok : Nat → Bool) :
    List String → ReviewState → List (Nat × Chunk) → Nat → Bool
  | _, _, [], _ => false
  | doc, s, (i, hunk) :: rest, f =>
    if i ∈ s.applied ∨ i ∈ s.skipped then reachesFailureB ok doc s rest f
    else if adjStart s hunk i < 0 then false
    else if ok i then
      reachesFailureB ok
        (splice doc (adjStart s hunk i).toNat hunk.oldLines (hunkNewText hunk))
        (recordApplied s i
          (((splice doc (adjStart s hunk i).toNat hunk.oldLines
            (hunkNewText hunk)).length : Int) - (doc.length : Int)))
        rest f
    else decide (i = f)

/-- The failing hunk of a replayed run is one of the visited hunks. -/
theorem reachesFailureB_mem (ok : Nat → Bool) :
    ∀ (l : List (Nat × Chunk)) (doc : List String) (s : ReviewState) (f : Nat),
      reachesFailureB ok doc s l f = true → ∃ h, (f, h) ∈ l
  | [], _, _, _, h => by cases h
  | (i, hunk) :: rest, doc, s, f, h => by
    unfold reachesFailureB at h
    split at h
    · obtain ⟨h', hm⟩ := reachesFailureB_mem ok rest doc s f h
      exact ⟨h', List.mem_cons_of_mem _ hm⟩
    · split at h
      · cases h
      · split at h
        · obtain ⟨h', hm⟩ := reachesFailureB_mem ok rest _ _ f h
          exact ⟨h', List.mem_cons_of_mem _ hm⟩
        · have : i = f := of_decide_eq_true h
          exact ⟨hunk, this ▸ List.mem_cons_self _ _⟩

/-- Elements of `enumFrom n l` have first components in `[n, n + length)`. -/
theorem mem_enumFrom_bounds :
    ∀ (l : List α) (n : Nat) (p : Nat × α), p ∈ l.enumFrom n → n ≤ p.1 ∧ p.1 < n + l.length
  | [], _, _, h => by cases h
  | a :: t, n, p, h => by
    rcases List.mem_cons.1 h with rfl | h'
    · simp
    · have := mem_enumFrom_bounds t (n + 1) p h'
      constructor
      · omega
      · simp only [List.length_cons]
        omega

/-- `enumFrom` carries strictly increasing indices. -/
theorem enumFrom_pairwise :
    ∀ (l : List α) (n : Nat), (l.enumFrom n).Pairwise (fun p q => p.1 < q.1)
  | [], _ => List.Pairwise.nil
  | a :: t, n => by
    refine List.Pairwise.cons (fun q hq => ?_) (enumFrom_pairwise t (n + 1))
    have := (mem_enumFrom_bounds t (n + 1) q hq).1
    simpa using by omega

/-- The master induction: if the replay hits an editor rejection at `f`, the
loop returns with the session open, the failing hunk still pending, every
hunk at or after `f` unchanged, every pending hunk visited before `f`
applied, and no other status change. -/
theorem applyAllRemainingGo_stops (ok : Nat → Bool) :
    ∀ (l : List (Nat × Chunk)) (doc : List String) (s : ReviewState) (f : Nat),
      reachesFailureB ok doc s l f = true →
      l.Pairwise (fun p q => p.1 < q.1) →
      (∀ j, j < f → statusOf s j = .pending → ∃ h, (j, h) ∈ l) →
      ∃ d' s', applyAllRemainingGo ok doc s l = ⟨d', some s'⟩ ∧
        statusOf s' f = .pending ∧
        (∀ k, f ≤ k → statusOf s' k = statusOf s k) ∧
        (∀ j, j < f → statusOf s j = .pending → statusOf s' j = .applied) ∧
        (∀ j, statusOf s' j = statusOf s j ∨
          (statusOf s j = .pending ∧ statusOf s' j = .applied))
  | [], _, _, _, hrf, _, _ => by cases hrf
  | (i, hunk) :: rest, doc, s, f, hrf, hpw, hall => by
    have hpw_head : ∀ q ∈ rest, i < q.1 := fun q hq =>
      (List.pairwise_cons.1 hpw).1 q hq
    have hpw_rest := (List.pairwise_cons.1 hpw).2
    unfold reachesFailureB at hrf
    unfold applyAllRemainingGo
    split at hrf
    case isTrue hproc =>
      rw [if_pos hproc]
      refine applyAllRemainingGo_stops ok rest doc s f hrf hpw_rest fun j hjf hjp => ?_
      obtain ⟨h', hm⟩ := hall j hjf hjp
      rcases List.mem_cons.1 hm with heq | hm'
      · cases heq
        refine absurd hjp ?_
        rw [statusOf_eq_pending_iff]
        exact not_not_intro hproc
      · exact ⟨h', hm'⟩
    case isFalse hpend =>
      rw [if_neg hpend]
      split at hrf
      · cases hrf
      case isFalse hadj =>
        rw [if_neg hadj]
        split at hrf
        case isTrue hok =>
          rw [if_pos hok]
          -- the head hunk is applied, continue with the updated session
          have hif : i < f := by
            obtain ⟨h', hm⟩ := reachesFailureB_mem ok rest _ _ f hrf
            exact hpw_head (f, h') hm
          have hall' : ∀ j, j < f →
              statusOf (recordApplied s i
                (((splice doc (adjStart s hunk i).toNat hunk.oldLines
                  (hunkNewText hunk)).length : Int) - (doc.length : Int))) j = .pending →
              ∃ h, (j, h) ∈ rest := by
            intro j hjf hjp
            have hji : j ≠ i := fun heq => by
              rw [heq, statusOf_recordApplied_self] at hjp
              cases hjp
            rw [statusOf_recordApplied_ne s i _ j hji] at hjp
            obtain ⟨h', hm⟩ := hall j hjf hjp
            rcases List.mem_cons.1 hm with heq | hm'
            · cases heq
              exact absurd rfl hji
            · exact ⟨h', hm'⟩
          obtain ⟨d', s', hgo, hf, hge, hlt, hoth⟩ :=
            applyAllRemainingGo_stops ok rest _ _ f hrf hpw_rest hall'
          refine ⟨d', s', hgo, hf, fun k hk => ?_, fun j hjf hjp => ?_, fun j => ?_⟩
          · rw [hge k hk, statusOf_recordApplied_ne s i _ k (by omega)]
          · by_cases hji : j = i
            · subst hji
              have := hge
              rcases hoth j with h | h
              · rw [h, statusOf_recordApplied_self]
              · exact h.2
            · exact hlt j hjf (by rw [statusOf_recordApplied_ne s i _ j hji]; exact hjp)
          · by_cases hji : j = i
            · subst hji
              right
              refine ⟨(statusOf_eq_pending_iff s j).2 hpend, ?_⟩
              rcases hoth j with h | h
              · rw [h, statusOf_recordApplied_self]
              · exact h.2
            · have hothj := hoth j
              rw [statusOf_recordApplied_ne s i _ j hji] at hothj
              exact hothj
        case isFalse hok =>
          -- editor rejection: i = f, the loop returns at once
          have hif : i = f := of_decide_eq_true hrf
          subst hif
          rw [if_neg (by simpa using hok)]
          refine ⟨doc, s, rfl, (statusOf_eq_pending_iff s i).2 hpend,
            fun k _ => rfl, fun j hjf hjp => ?_, fun j => Or.inl rfl⟩
          obtain ⟨h', hm⟩ := hall j hjf hjp
          rcases List.mem_cons.1 hm with heq | hm'
          · cases heq
            exact absurd hjf (lt_irrefl i)
          · have := hpw_head (j, h') hm'
            simp only at this
            omega

/-- C5: (1) an `applyHunkOnly` whose edit the editor rejects — and likewise
one stopped by the range validation — leaves the document, the status sets
and the delta map untouched and the session open (only the preview may
advance); (2) `applyAllRemainingInFile` stops at the first editor rejection,
leaving every pending hunk processed before it `applied`, the failing hunk
and everything at or after it unchanged (in particular still `pending`), and
the session open. -/
theorem C5_stop_at_first_failure :
    (∀ (st : EditorState) (s : ReviewState) (i : Nat), st.session = some s →
      ∃ s', applyHunkOnly false st i = ⟨st.doc, some s'⟩ ∧
        s'.chunks = s.chunks ∧ s'.applied = s.applied ∧ s'.skipped = s.skipped ∧
        s'.netDelta = s.netDelta) ∧
    (∀ (ok : Nat → Bool) (st : EditorState) (s : ReviewState) (f : Nat),
      st.session = some s →
      reachesFailureB ok st.doc s s.chunks.enum f = true →
      ∃ d' s', applyAllRemaining ok st = ⟨d', some s'⟩ ∧
        statusOf s' f = .pending ∧
        (∀ k, f ≤ k → statusOf s' k = statusOf s k) ∧
        (∀ j, j < f → statusOf s j = .pending → statusOf s' j = .applied) ∧
        (∀ j, statusOf s' j = statusOf s j ∨
          (statusOf s j = .pending ∧ statusOf s' j = .applied))) := by
  constructor
  · intro st s i hst
    have hsteta : st = ⟨st.doc, some s⟩ := by
      cases st
      cases hst
      rfl
    rw [hsteta]
    simp only [applyHunkOnly, Bool.false_eq_true, if_false]
    split
    · exact ⟨s, rfl, rfl, rfl, rfl, rfl⟩
    · split
      · exact ⟨s, rfl, rfl, rfl, rfl, rfl⟩
      · split
        · exact ⟨s, rfl, rfl, rfl, rfl, rfl⟩
        · split
          · exact ⟨s, rfl, rfl, rfl, rfl, rfl⟩
          · exact ⟨_, rfl, rfl, rfl, rfl, rfl⟩
  · intro ok st s f hst hrf
    have hsteta : st = ⟨st.doc, some s⟩ := by
      cases st
      cases hst
      rfl
    rw [hsteta]
    show ∃ d' s', applyAllRemainingGo ok st.doc s s.chunks.enum = ⟨d', some s'⟩ ∧ _
    refine applyAllRemainingGo_stops ok s.chunks.enum st.doc s f hrf
      (enumFrom_pairwise s.chunks 0) fun j hjf hjp => ?_
    obtain ⟨h', hfm⟩ := reachesFailureB_mem ok s.chunks.enum st.doc s f hrf
    have hfn : f < s.chunks.length := by
      have := (mem_enumFrom_bounds s.chunks 0 (f, h') hfm).2
      omega
    have hjn : j < s.chunks.length := by omega
    refine ⟨s.chunks[j], ?_⟩
    have hlen : j < s.chunks.enum.length := by
      rw [List.enum_length]
      exact hjn
    have := List.getElem_mem hlen
    rwa [List.getElem_enum] at this

/-- C5, witness: three pending hunks over `"a\nb\nc\n"`, an editor that
rejects the edit of hunk 1: the run leaves hunk 0 applied, hunks 1 and 2
pending, and the session open; a single rejected `applyHunkOnly` likewise
changes no status. -/
theorem C5_stop_at_first_failure_witness :
    (∃ s', applyHunkOnly false
        ⟨["a", "b", "c", ""], some (startSession
          [⟨1, 1, 1, 1, [⟨.del, "-a"⟩, ⟨.add, "+A"⟩]⟩,
           ⟨2, 1, 2, 1, [⟨.del, "-b"⟩, ⟨.add, "+B"⟩]⟩,
           ⟨3, 1, 3, 1, [⟨.del, "-c"⟩, ⟨.add, "+C"⟩]⟩])⟩ 1 =
        ⟨["a", "b", "c", ""], some s'⟩ ∧
      s'.chunks = (startSession
          [⟨1, 1, 1, 1, [⟨.del, "-a"⟩, ⟨.add, "+A"⟩]⟩,
           ⟨2, 1, 2, 1, [⟨.del, "-b"⟩, ⟨.add, "+B"⟩]⟩,
           ⟨3, 1, 3, 1, [⟨.del, "-c"⟩, ⟨.add, "+C"⟩]⟩]).chunks ∧
      s'.applied = [] ∧ s'.skipped = [] ∧ s'.netDelta = []) ∧
    (∃ d' s', applyAllRemaining (fun j => j != 1)
        ⟨["a", "b", "c", ""], some (startSession
          [⟨1, 1, 1, 1, [⟨.del, "-a"⟩, ⟨.add, "+A"⟩]⟩,
           ⟨2, 1, 2, 1, [⟨.del, "-b"⟩, ⟨.add, "+B"⟩]⟩,
           ⟨3, 1, 3, 1, [⟨.del, "-c"⟩, ⟨.add, "+C"⟩]⟩])⟩ = ⟨d', some s'⟩ ∧
      statusOf s' 1 = .pending ∧
      (∀ k, 1 ≤ k → statusOf s' k =
        statusOf (startSession
          [⟨1, 1, 1, 1, [⟨.del, "-a"⟩, ⟨.add, "+A"⟩]⟩,
           ⟨2, 1, 2, 1, [⟨.del, "-b"⟩, ⟨.add, "+B"⟩]⟩,
           ⟨3, 1, 3, 1, [⟨.del, "-c"⟩, ⟨.add, "+C"⟩]⟩]) k) ∧
      (∀ j, j < 1 → statusOf (startSession
          [⟨1, 1, 1, 1, [⟨.del, "-a"⟩, ⟨.add, "+A"⟩]⟩,
           ⟨2, 1, 2, 1, [⟨.del, "-b"⟩, ⟨.add, "+B"⟩]⟩,
           ⟨3, 1, 3, 1, [⟨.del, "-c"⟩, ⟨.add, "+C"⟩]⟩]) j = .pending →
        statusOf s' j = .applied) ∧
      (∀ j, statusOf s' j =
          statusOf (startSession
            [⟨1, 1, 1, 1, [⟨.del, "-a"⟩, ⟨.add, "+A"⟩]⟩,
             ⟨2, 1, 2, 1, [⟨.del, "-b"⟩, ⟨.add, "+B"⟩]⟩,
             ⟨3, 1, 3, 1, [⟨.del, "-c"⟩, ⟨.add, "+C"⟩]⟩]) j ∨
        (statusOf (startSession
            [⟨1, 1, 1, 1, [⟨.del, "-a"⟩, ⟨.add, "+A"⟩]⟩,
             ⟨2, 1, 2, 1, [⟨.del, "-b"⟩, ⟨.add, "+B"⟩]⟩,
             ⟨3, 1, 3, 1, [⟨.del, "-c"⟩, ⟨.add, "+C"⟩]⟩]) j = .pending ∧
          statusOf s' j = .applied))) := by
  obtain ⟨h1, h2⟩ := C5_stop_at_first_failure
  constructor
  · obtain ⟨s', heq, hc, ha, hk, hn⟩ := h1
      ⟨["a", "b", "c", ""], some (startSession
        [⟨1, 1, 1, 1, [⟨.del, "-a"⟩, ⟨.add, "+A"⟩]⟩,
         ⟨2, 1, 2, 1, [⟨.del, "-b"⟩, ⟨.add, "+B"⟩]⟩,
         ⟨3, 1, 3, 1, [⟨.del, "-c"⟩, ⟨.add, "+C"⟩]⟩])⟩
      (startSession
        [⟨1, 1, 1, 1, [⟨.del, "-a"⟩, ⟨.add, "+A"⟩]⟩,
         ⟨2, 1, 2, 1, [⟨.del, "-b"⟩, ⟨.add, "+B"⟩]⟩,
         ⟨3, 1, 3, 1, [⟨.del, "-c"⟩, ⟨.add, "+C"⟩]⟩]) 1 rfl
    exact ⟨s', heq, hc, ha, hk, hn⟩
  · exact h2 (fun j => j != 1)
      ⟨["a", "b", "c", ""], some (startSession
        [⟨1, 1, 1, 1, [⟨.del, "-a"⟩, ⟨.add, "+A"⟩]⟩,
         ⟨2, 1, 2, 1, [⟨.del, "-b"⟩, ⟨.add, "+B"⟩]⟩,
         ⟨3, 1, 3, 1, [⟨.del, "-c"⟩, ⟨.add, "+C"⟩]⟩])⟩
      (startSession
        [⟨1, 1, 1, 1, [⟨.del, "-a"⟩, ⟨.add, "+A"⟩]⟩,
         ⟨2, 1, 2, 1, [⟨.del, "-b"⟩, ⟨.add, "+B"⟩]⟩,
         ⟨3, 1, 3, 1, [⟨.del, "-c"⟩, ⟨.add, "+C"⟩]⟩]) 1 rfl (by decide)

/-! ## Batch application equals interactive application -/

/-- A splice whose position lies beyond a prefix leaves the prefix alone. -/
theorem splice_append_right (A B : List α) (pos cnt : Nat) (ins : List α)
    (h : A.length ≤ pos) :
    splice (A ++ B) pos cnt ins = A ++ splice B (pos - A.length) cnt ins := by
  unfold splice
  have h1 : A.drop (pos + cnt) = [] := List.drop_eq_nil_iff.2 (by omega)
  have h2 : pos + cnt - A.length = pos - A.length + cnt := by omega
  rw [List.take_append_eq_append_take, List.take_of_length_le h,
    List.drop_append_eq_append_drop, h1, h2]
  simp

/-- A splice contained in a prefix leaves the suffix alone. -/
theorem splice_append_left (A B : List α) (pos cnt : Nat) (ins : List α)
    (h : pos + cnt ≤ A.length) :
    splice (A ++ B) pos cnt ins = splice A pos cnt ins ++ B := by
  unfold splice
  rw [List.take_append_of_le_length (by omega), List.drop_append_of_le_length h]
  simp

/-- The canonical segmented result of applying an ordered, non-overlapping
hunk list to the suffix of the original buffer that starts at line `base`:
copy the gap up to the next hunk, emit its replacement lines, and continue
after its footprint. -/
def canonFrom (base : Nat) : List String → List Chunk → List String
  | L, [] => L
  | L, c :: rest =>
    L.take (hunkPos c - base) ++ insertLines c ++
      canonFrom (hunkPos c + c.oldLines) (L.drop (hunkPos c - base + c.oldLines)) rest

/-- The bottom-to-top loop of `applyPatchToContent`, on the line level. -/
def batchApply (L : List String) (hs : List Chunk) : List String :=
  hs.reverse.foldl applyChunkStep L

theorem batchApply_cons (L : List String) (c : Chunk) (t : List Chunk) :
    batchApply L (c :: t) = applyChunkStep (batchApply L t) c :=
  foldl_reverse_cons applyChunkStep L c t

/-- `applyPatchToContent` is the line-level loop under split/join. -/
theorem applyPatchToContent_eq_batchApply (T : String) (fd : FileDiff) :
    applyPatchToContent T fd = joinLines (batchApply (splitLines T) fd.chunks) := rfl

/-- The bottom-to-top loop only rewrites the region from `m` on when every
hunk lies beyond `m`, and produces the canonical segmented result there. -/
theorem batchApply_localize :
    ∀ (hs : List Chunk) (L : List String) (m : Nat),
      Chain L.length m hs →
      batchApply L hs = L.take m ++ canonFrom m (L.drop m) hs
  | [], L, m, _ => by
    show L = L.take m ++ L.drop m
    rw [List.take_append_drop]
  | c :: t, L, m, hch => by
    obtain ⟨hmp, hbound, hcht⟩ := (hch : m ≤ hunkPos c ∧
      hunkPos c + c.oldLines ≤ L.length ∧ Chain L.length (hunkPos c + c.oldLines) t)
    rw [batchApply_cons, batchApply_localize t L (hunkPos c + c.oldLines) hcht]
    unfold applyChunkStep
    rw [splice_append_left _ _ _ _ _ (by rw [List.length_take]; omega)]
    unfold splice
    have e1 : (L.take (hunkPos c + c.oldLines)).take (hunkPos c) = L.take (hunkPos c) := by
      rw [List.take_take, Nat.min_eq_left (by omega)]
    have e2 : (L.take (hunkPos c + c.oldLines)).drop (hunkPos c + c.oldLines) = [] := by
      rw [List.drop_take, Nat.sub_self]
      rfl
    have e3 : L.take (hunkPos c) = L.take m ++ (L.drop m).take (hunkPos c - m) := by
      have hsplit : hunkPos c = m + (hunkPos c - m) := by omega
      nth_rewrite 1 [hsplit]
      rw [List.take_add]
    have e4 : (L.drop m).drop (hunkPos c - m + c.oldLines) =
        L.drop (hunkPos c + c.oldLines) := by
      rw [List.drop_drop]
      congr 1
      omega
    show canonFrom (hunkPos c + c.oldLines) (L.drop (hunkPos c + c.oldLines)) t
        |> fun R => (L.take (hunkPos c + c.oldLines)).take (hunkPos c) ++ insertLines c ++
          (L.take (hunkPos c + c.oldLines)).drop (hunkPos c + c.oldLines) ++ R =
        L.take m ++ canonFrom m (L.drop m) (c :: t)
    simp only []
    rw [e1, e2, e3]
    conv_rhs => rw [canonFrom]
    rw [e4]
    simp [List.append_assoc]

/-- Under the data-model invariant the `newLines = 0` repair of
`newTextForHunk` is dead code. -/
theorem hunkNewText_eq_insertLines (c : Chunk) (h : WellFormedChunk c) :
    hunkNewText c = insertLines c := by
  simp only [hunkNewText]
  split
  case isTrue hc =>
    exfalso
    obtain ⟨h0, h1⟩ := hc
    have hlen : (insertLines c).length = c.newLines := by
      unfold insertLines
      rw [List.length_map]
      exact h.2.2.symm
    rw [h1] at hlen
    simp at hlen
    omega
  case isFalse => rfl

/-- Looking up a different key skips the new head entry. -/
theorem lookup_cons_ne (j k : Nat) (h : j ≠ k) (delta : Int) (l : List (Nat × Int)) :
    List.lookup j ((k, delta) :: l) = List.lookup j l := by
  have hbeq : (j == k) = false := beq_eq_false_iff_ne.2 h
  simp only [List.lookup, hbeq]

/-- The offset loop only reads the applied set and the delta map. -/
theorem adjOffset_congr (s₁ s₂ : ReviewState) (h2 : s₁.applied = s₂.applied)
    (h3 : s₁.netDelta = s₂.netDelta) (k : Nat) : adjOffset s₁ k = adjOffset s₂ k := by
  unfold adjOffset
  rw [h2, h3]

/-- Recording one applied hunk extends the offset sum by its delta. -/
theorem adjOffset_recordApplied (s : ReviewState) (k : Nat) (delta : Int)
    (hnp : k ∉ s.applied) :
    adjOffset (recordApplied s k delta) (k + 1) = adjOffset s k + delta := by
  rw [adjOffset_eq_sum, adjOffset_eq_sum, Finset.sum_range_succ]
  have hterm : (if statusOf (recordApplied s k delta) k = .applied
      then ((recordApplied s k delta).netDelta.lookup k).getD 0 else 0) = delta := by
    rw [if_pos (statusOf_recordApplied_self s k delta)]
    show (List.lookup k ((k, delta) :: s.netDelta)).getD 0 = delta
    simp [List.lookup]
  rw [hterm]
  refine congrArg (· + delta) (Finset.sum_congr rfl fun j hj => ?_)
  have hjk : j ≠ k := by
    have := Finset.mem_range.1 hj
    omega
  rw [statusOf_recordApplied_ne s k delta j hjk]
  refine congrArg (fun o => if statusOf s j = HunkStatus.applied then Option.getD o 0 else 0) ?_
  exact lookup_cons_ne j k hjk delta s.netDelta

/-- The element a nonempty drop starts with. -/
theorem getElem?_of_drop_cons (full : List Chunk) (k : Nat) (c : Chunk) (rest : List Chunk)
    (h : full.drop k = c :: rest) : full[k]? = some c := by
  have hd := List.getElem?_drop full k 0
  rw [h] at hd
  simpa using hd.symm

/-- The interactive path: starting from a session whose first `k` hunks are
applied (with the accumulated offset relating the frozen output prefix `C` to
the consumed original prefix `m`), applying the remaining hunks in ascending
index order yields the canonical segmented result, and clears the session as
the last hunk is applied. -/
theorem interactive_run :
    ∀ (rest : List Chunk) (k : Nat) (C L : List String) (m : Nat) (s : ReviewState),
      s.chunks.drop k = rest →
      (∀ c ∈ rest, WellFormedChunk c) →
      Chain L.length m rest →
      (∀ j, j ∈ s.applied ↔ j < k) →
      s.skipped = [] →
      adjOffset s k = (C.length : Int) - (m : Int) →
      m ≤ L.length →
      List.foldl (applyHunkOnly true) ⟨C ++ L.drop m, some s⟩ (List.range' k rest.length) =
        ⟨C ++ canonFrom m (L.drop m) rest, if rest.isEmpty then some s else none⟩
  | [], k, C, L, m, s, hrest, hwf, hch, H1, H2, H3, hmL => rfl
  | c :: rest', k, C, L, m, s, hrest, hwf, hch, H1, H2, H3, hmL => by
    obtain ⟨hmp, hbound, hcht⟩ := (hch : m ≤ hunkPos c ∧
      hunkPos c + c.oldLines ≤ L.length ∧ Chain L.length (hunkPos c + c.oldLines) rest')
    have hklen : k < s.chunks.length := by
      by_contra hq
      rw [List.drop_eq_nil_iff.2 (by omega)] at hrest
      cases hrest
    have hlenfull : s.chunks.length = k + 1 + rest'.length := by
      have hdlen : (s.chunks.drop k).length = s.chunks.length - k := List.length_drop k _
      rw [hrest] at hdlen
      simp only [List.length_cons] at hdlen
      omega
    have hcwf : WellFormedChunk c := hwf c (List.mem_cons_self c rest')
    have hos : 1 ≤ c.oldStart := hcwf.1
    have hck : s.chunks[k]? = some c := getElem?_of_drop_cons s.chunks k c rest' hrest
    have hpend : statusOf s k = .pending := by
      rw [statusOf_eq_pending_iff]
      rintro (h | h)
      · have := (H1 k).1 h
        omega
      · rw [H2] at h
        cases h
    have hdoclen : (C ++ L.drop m).length = C.length + (L.length - m) := by
      rw [List.length_append, List.length_drop]
    have hcast : (c.oldStart : Int) - 1 = ((hunkPos c : Nat) : Int) := by
      unfold hunkPos
      omega
    have hadjv : adjStart s c k = ((C.length + (hunkPos c - m) : Nat) : Int) := by
      unfold adjStart
      rw [H3, hcast]
      omega
    have hadj0 : 0 ≤ adjStart s c k := by
      rw [hadjv]
      positivity
    have hadjbound : adjStart s c k + c.oldLines ≤ ((C ++ L.drop m).length : Int) := by
      rw [hadjv, hdoclen]
      have h2 : C.length + (hunkPos c - m) + c.oldLines ≤ C.length + (L.length - m) := by
        omega
      exact_mod_cast h2
    have hsucc := applyHunkOnly_success_eq (C ++ L.drop m) s k c hpend hck hadj0 hadjbound
    have htoNat : (adjStart s c k).toNat = C.length + (hunkPos c - m) := by
      rw [hadjv]
      exact Int.toNat_natCast _
    have hnewdoc : splice (C ++ L.drop m) (adjStart s c k).toNat c.oldLines (hunkNewText c) =
        (C ++ ((L.drop m).take (hunkPos c - m) ++ insertLines c)) ++
          L.drop (hunkPos c + c.oldLines) := by
      rw [htoNat, hunkNewText_eq_insertLines c hcwf,
        splice_append_right _ _ _ _ _ (by omega)]
      have hpos : C.length + (hunkPos c - m) - C.length = hunkPos c - m := by omega
      rw [hpos]
      unfold splice
      rw [List.drop_drop]
      have harg : m + (hunkPos c - m + c.oldLines) = hunkPos c + c.oldLines := by omega
      rw [harg]
      simp [List.append_assoc]
    have hproc_iff : ∀ delta : Int,
        (allProcessed (recordApplied s k delta) = true ↔ s.chunks.length ≤ k + 1) := by
      intro delta
      unfold allProcessed
      rw [List.all_eq_true]
      constructor
      · intro hall
        by_contra hq
        have h2 := hall (k + 1)
          (List.mem_range.2 (show k + 1 < s.chunks.length by omega))
        simp only [decide_eq_true_eq] at h2
        rcases h2 with h2 | h2
        · rw [show (recordApplied s k delta).applied = setAdd s.applied k from rfl,
            mem_setAdd] at h2
          rcases h2 with h2 | h2
          · omega
          · have := (H1 (k + 1)).1 h2
            omega
        · rw [show (recordApplied s k delta).skipped = s.skipped from rfl, H2] at h2
          cases h2
      · intro hlen j hj
        rw [List.mem_range] at hj
        have hjlen : j < s.chunks.length := hj
        simp only [decide_eq_true_eq]
        left
        rw [show (recordApplied s k delta).applied = setAdd s.applied k from rfl, mem_setAdd]
        by_cases hjk : j = k
        · exact Or.inl hjk
        · exact Or.inr ((H1 j).2 (by omega))
    rw [show List.range' k (c :: rest').length = k :: List.range' (k + 1) rest'.length from rfl,
      List.foldl_cons, hsucc]
    simp only [applySuccessResult]
    rw [hnewdoc]
    set dv : Int :=
      (((C ++ ((L.drop m).take (hunkPos c - m) ++ insertLines c)) ++
        L.drop (hunkPos c + c.oldLines)).length : Int) -
        ((C ++ L.drop m).length : Int) with hdv
    set s₂ : ReviewState :=
      { recordApplied s k dv with
        activeHunk := some ((nextPending (recordApplied s k dv)).getD k) } with hs₂
    by_cases hre : rest' = []
    · rw [if_pos ((hproc_iff _).2 (by rw [hre] at hlenfull; simp at hlenfull; omega))]
      rw [hre]
      show (⟨(C ++ ((L.drop m).take (hunkPos c - m) ++ insertLines c)) ++
          L.drop (hunkPos c + c.oldLines), none⟩ : EditorState) = _
      rw [if_neg (by simp)]
      refine congrArg (fun D => (⟨D, none⟩ : EditorState)) ?_
      conv_rhs => rw [canonFrom]
      rw [show (L.drop m).drop (hunkPos c - m + c.oldLines) =
          L.drop (hunkPos c + c.oldLines) by
        rw [List.drop_drop]
        congr 1
        omega]
      rw [show canonFrom (hunkPos c + c.oldLines) (L.drop (hunkPos c + c.oldLines))
          ([] : List Chunk) = L.drop (hunkPos c + c.oldLines) from rfl]
      simp [List.append_assoc]
    · have hposlen : 0 < rest'.length := List.length_pos.2 hre
      rw [if_neg (by rw [hproc_iff _]; omega)]
      have hIH := interactive_run rest' (k + 1)
        (C ++ ((L.drop m).take (hunkPos c - m) ++ insertLines c)) L
        (hunkPos c + c.oldLines) s₂
        (by
          show s.chunks.drop (k + 1) = rest'
          rw [← List.drop_drop, hrest]
          rfl)
        (fun ch hch' => hwf ch (List.mem_cons_of_mem c hch'))
        hcht
        (by
          intro j
          show j ∈ setAdd s.applied k ↔ j < k + 1
          rw [mem_setAdd]
          constructor
          · rintro (rfl | hj)
            · omega
            · have := (H1 j).1 hj
              omega
          · intro hj
            by_cases hjk : j = k
            · exact Or.inl hjk
            · exact Or.inr ((H1 j).2 (by omega)))
        H2
        (by
          have hoff : adjOffset s₂ (k + 1) = adjOffset (recordApplied s k dv) (k + 1) :=
            adjOffset_congr _ _ rfl rfl (k + 1)
          rw [hoff, adjOffset_recordApplied s k dv (fun hm => by
            have := (H1 k).1 hm
            omega), H3, hdv]
          simp only [List.length_append, List.length_take, List.length_drop]
          push_cast
          omega)
        (by omega)
      rw [hIH, if_neg (by simp [List.isEmpty_iff, hre]), if_neg (by simp)]
      refine congrArg (fun D => (⟨D, none⟩ : EditorState)) ?_
      conv_rhs => rw [canonFrom]
      rw [show (L.drop m).drop (hunkPos c - m + c.oldLines) =
          L.drop (hunkPos c + c.oldLines) by
        rw [List.drop_drop]
        congr 1
        omega]
      simp [List.append_assoc]

/-- The concrete inputs of the batch/interactive agreement check: a
four-line file and a coherent two-hunk diff. -/
def c2T : String := "a\nb\nc\nd\n"

def c2fd : FileDiff :=
  ⟨[⟨1, 1, 1, 3, [⟨.del, "-a"⟩, ⟨.add, "+A"⟩, ⟨.add, "+B"⟩, ⟨.add, "+C"⟩]⟩,
    ⟨3, 1, 5, 1, [⟨.del, "-c"⟩, ⟨.add, "+C2"⟩]⟩]⟩

/-- C2: for every original text and every ordered, non-overlapping hunk list
that fits the text (`Chain`) and whose declared line counts match its change
lists (`WellFormedChunk`), the batch path `applyPatchToContent` yields the
same final text as the interactive path that starts a review session on the
same text and invokes the apply-hunk command on every hunk index in ascending
order with every editor edit succeeding. -/
theorem C2_batch_eq_interactive (T : String) (fd : FileDiff)
    (hwf : ∀ c ∈ fd.chunks, WellFormedChunk c)
    (hchain : Chain (splitLines T).length 0 fd.chunks) :
    joinLines ((List.foldl (applyHunkOnly true)
        ⟨splitLines T, some (startSession fd.chunks)⟩
        (List.range fd.chunks.length)).doc) = applyPatchToContent T fd := by
  have hrun := interactive_run fd.chunks 0 [] (splitLines T) 0 (startSession fd.chunks)
    rfl hwf hchain (fun j => by simp [startSession]) rfl (by simp [adjOffset]) (Nat.zero_le _)
  rw [List.range_eq_range']
  rw [show (⟨splitLines T, some (startSession fd.chunks)⟩ : EditorState) =
    ⟨[] ++ (splitLines T).drop 0, some (startSession fd.chunks)⟩ from rfl]
  rw [hrun]
  rw [applyPatchToContent_eq_batchApply,
    batchApply_localize fd.chunks (splitLines T) 0 hchain]
  rfl

/-- Concrete batch/interactive agreement on a two-hunk diff whose first hunk
grows the file. -/
theorem C2_batch_eq_interactive_witness :
    (∀ c ∈ c2fd.chunks, WellFormedChunk c) ∧
    Chain (splitLines c2T).length 0 c2fd.chunks ∧
    joinLines ((List.foldl (applyHunkOnly true)
        ⟨splitLines c2T, some (startSession c2fd.chunks)⟩
        (List.range c2fd.chunks.length)).doc) = applyPatchToContent c2T c2fd :=
  ⟨by decide, by decide, C2_batch_eq_interactive c2T c2fd (by decide) (by decide)⟩

end QuickPatch

